import Mathlib

/-!
Verification development for the VoxelEngineBevy chunk-streaming and meshing
pipeline. Each definition is a shallow embedding of one Rust item of the
repository (file and item named in its doc comment). Machine integers are
modelled as `Nat`/`Int`; wrapping and panicking behaviour is made explicit
(`% 2^32`, `Option`, dedicated result types) exactly where the source can
wrap or panic.
-/

namespace VoxelEngine

/-- From src/positions.rs: `ChunkPos`, an integer chunk coordinate (`i32`
components, modelled as unbounded integers). -/
structure ChunkPos where
  x : ℤ
  y : ℤ
  z : ℤ
deriving DecidableEq, Repr

namespace ChunkPos

/-- From src/positions.rs: `ChunkPos::splat`. -/
def splat (val : ℤ) : ChunkPos := ⟨val, val, val⟩

/-- From src/positions.rs: componentwise `Add` for `ChunkPos`. -/
instance : Add ChunkPos := ⟨fun a b => ⟨a.x + b.x, a.y + b.y, a.z + b.z⟩⟩

theorem add_def (a b : ChunkPos) : a + b = ⟨a.x + b.x, a.y + b.y, a.z + b.z⟩ := rfl

/-- From src/positions.rs: componentwise `Sub` for `ChunkPos`. -/
instance : Sub ChunkPos := ⟨fun a b => ⟨a.x - b.x, a.y - b.y, a.z - b.z⟩⟩

theorem sub_def (a b : ChunkPos) : a - b = ⟨a.x - b.x, a.y - b.y, a.z - b.z⟩ := rfl

/-- From src/positions.rs: `ChunkPos::distance_squared` (the `as u32` cast is
dropped; the value is a sum of squares, hence already non-negative). -/
def distance_squared (a b : ChunkPos) : ℤ :=
  (a.x - b.x) ^ 2 + (a.y - b.y) ^ 2 + (a.z - b.z) ^ 2

end ChunkPos

/-- From src/positions.rs: `index_to_chunk_pos_bounds`
`(index % bounds, (index / bounds) % bounds, index / bounds²)`. -/
def index_to_chunk_pos_bounds (index : ℕ) (bounds : ℕ) : ChunkPos :=
  ⟨(index % bounds : ℕ), ((index / bounds) % bounds : ℕ), (index / (bounds * bounds) : ℕ)⟩

/-- From src/positions.rs: `chunk_pos_to_index_bounds`
`x % bounds + y*bounds + z*bounds²` (meaningful for non-negative components;
the source casts the sum `as usize`). -/
def chunk_pos_to_index_bounds (p : ChunkPos) (bounds : ℕ) : ℤ :=
  p.x % (bounds : ℤ) + p.y * (bounds : ℤ) + p.z * ((bounds : ℤ) * (bounds : ℤ))

/-- From src/constants.rs: `CHUNK_SIZE`. -/
def CHUNK_SIZE : ℕ := 32

/-- From src/constants.rs: `CHUNKS_FROM_MIDDLE_SIZE`. -/
def CHUNKS_FROM_MIDDLE_SIZE : ℕ := 3

/-- From src/constants.rs: `ADJACENT_CHUNK_DIRECTIONS`, the 27 neighbourhood
offsets in the source's order (the zero offset first, the six von Neumann
neighbours last). -/
def ADJACENT_CHUNK_DIRECTIONS : List ChunkPos :=
  [⟨0, 0, 0⟩,
   ⟨0, -1, -1⟩,
   ⟨-1, 0, -1⟩,
   ⟨-1, 0, 1⟩,
   ⟨-1, -1, 0⟩,
   ⟨-1, -1, -1⟩,
   ⟨-1, 1, -1⟩,
   ⟨-1, -1, 1⟩,
   ⟨-1, 1, 1⟩,
   ⟨1, 0, -1⟩,
   ⟨1, -1, -1⟩,
   ⟨0, 1, -1⟩,
   ⟨1, 1, 1⟩,
   ⟨1, -1, 1⟩,
   ⟨1, 1, -1⟩,
   ⟨1, 1, 0⟩,
   ⟨0, 1, 1⟩,
   ⟨1, -1, 0⟩,
   ⟨0, -1, 1⟩,
   ⟨1, 0, 1⟩,
   ⟨-1, 1, 0⟩,
   ⟨-1, 0, 0⟩,
   ⟨1, 0, 0⟩,
   ⟨0, -1, 0⟩,
   ⟨0, 1, 0⟩,
   ⟨0, 0, -1⟩,
   ⟨0, 0, 1⟩]

/-- From src/voxel.rs: `VoxelType` (the variant of voxel.rs used by
src/vertex.rs carries discriminants 0 and 1; `From<VoxelType> for u32`
maps the first variant to 0 and `Block` to 1). -/
inductive VoxelType where
  | none
  | block
deriving DecidableEq, Repr

/-- From src/voxel.rs: `From<VoxelType> for u32`. -/
def VoxelType.toU32 : VoxelType → ℕ
  | .none => 0
  | .block => 1

/-- From src/voxel.rs: `From<u32> for VoxelType`; the wildcard arm panics,
modelled as `Option.none`. -/
def VoxelType.fromU32 : ℕ → Option VoxelType
  | 0 => some .none
  | 1 => some .block
  | _ => none

/-- From src/positions.rs: `VoxelPos`, a local voxel coordinate (usize
components). -/
structure VoxelPos where
  x : ℕ
  y : ℕ
  z : ℕ
deriving DecidableEq, Repr

/-- From src/positions.rs: `VoxelPos::to_index`
`x + (y + z * CHUNK_SIZE) * CHUNK_SIZE`. -/
def VoxelPos.to_index (p : VoxelPos) : ℕ :=
  p.x + (p.y + p.z * CHUNK_SIZE) * CHUNK_SIZE

/-- From src/vertex.rs: `Vertex` (a quad-corner vertex before packing). -/
structure Vertex where
  pos : VoxelPos
  ao : ℕ
  normal : ℕ
  voxel_type : VoxelType
deriving DecidableEq, Repr

namespace Vertex

/-- From src/vertex.rs: `Vertex::to_u32`. The packed word is
`x | y << 6 | z << 12 | ao << 18 | normal << 21 | voxel_type << 24`,
truncated to 32 bits as the `u32` arithmetic of the source would. -/
def to_u32 (v : Vertex) : ℕ :=
  (v.pos.x |||
    (v.pos.y <<< 6) |||
    (v.pos.z <<< 12) |||
    (v.ao <<< 18) |||
    (v.normal <<< 21) |||
    (v.voxel_type.toU32 <<< 24)) % 2 ^ 32

/-- From src/vertex.rs: `Vertex::from_u32`. Reads x from bits 0-5, y from
bits 12-17, z from bits 6-11, ao from bits 18-20, normal from bits 21-23 and
the voxel type from bits 24-31; the `VoxelType` conversion panics (`none`)
on an unknown discriminant. -/
def from_u32 (w : ℕ) : Option Vertex :=
  let pos_mask : ℕ := 63
  let three_bits_mask : ℕ := 7
  let eight_bits_mask : ℕ := 255
  let pos : VoxelPos :=
    ⟨w &&& pos_mask, (w &&& (pos_mask <<< 12)) >>> 12, (w &&& (pos_mask <<< 6)) >>> 6⟩
  let ao := (w &&& (three_bits_mask <<< 18)) >>> 18
  let normal := (w &&& (three_bits_mask <<< 21)) >>> 21
  (VoxelType.fromU32 ((w &&& (eight_bits_mask <<< 24)) >>> 24)).map
    (fun voxel_type => ⟨pos, ao, normal, voxel_type⟩)

end Vertex

/-- From src/voxel.rs: `Voxel` (the one-field record carrying the type tag;
src/chunk_from_middle.rs and src/greedy_mesher.rs read it as `voxel_type`). -/
structure Voxel where
  voxel_type : VoxelType
deriving DecidableEq, Repr

/-- Modelled from the spec: the chunk backing store. src/chunk.rs only has a
fixed dense array `[Voxel; CHUNK_SIZE³]`, but src/chunk_from_middle.rs and
src/greedy_mesher.rs require a length-queryable chunk (`chunk.len()` is 1 for
the homogeneous single-voxel representation, `CHUNK_SIZE³` otherwise); that
`Chunk` type is not in src/. Spec §3: "A single-voxel chunk (homogeneous
optimization) is a valid alternate representation when every voxel is
identical — consumers must check length before indexing", so positional
indexing itself performs no length check and out-of-range indexing panics
(modelled as `Option.none`). -/
def Chunk : Type := List Voxel

instance : DecidableEq Chunk :=
  inferInstanceAs (DecidableEq (List Voxel))

/-- Positional indexing `chunk[i]` on the modelled chunk: panic (`none`) when
out of range. -/
def Chunk.get (c : Chunk) (i : ℕ) : Option Voxel :=
  List.get? (α := Voxel) c i

/-- From src/chunk.rs: `Index<VoxelPos> for Chunk`, positional indexing at
`VoxelPos::to_index` (no length check). -/
def Chunk.get_voxel_pos (c : Chunk) (p : VoxelPos) : Option Voxel :=
  c.get p.to_index

/-- The voxel store `HashMap<ChunkPos, Arc<Chunk>>` (src/world.rs field
`chunks`), modelled as an association list keyed by coordinate. -/
def ChunkStore : Type := List (ChunkPos × Chunk)

/-- `HashMap::get` on the modelled store. -/
def ChunkStore.get (s : ChunkStore) (p : ChunkPos) : Option Chunk :=
  (List.find? (fun e : ChunkPos × Chunk => e.1 = p) s).map Prod.snd

/-- `HashMap::contains_key` on the modelled store. -/
def ChunkStore.contains_key (s : ChunkStore) (p : ChunkPos) : Bool :=
  List.any s (fun e : ChunkPos × Chunk => e.1 = p)

/-- From src/chunk_from_middle.rs: `ChunksFromMiddle`, the 27 neighbourhood
chunks in raster order (index 0 is offset (-1,-1,-1)). -/
structure ChunksFromMiddle where
  chunks : List Chunk
deriving DecidableEq

/-- Outcome of `ChunksFromMiddle::try_new`: the source either panics (the
`unwrap` on the store lookup) or returns an `Option<ChunksFromMiddle>`. -/
inductive TryNewResult where
  | panicked
  | returned (r : Option ChunksFromMiddle)
deriving DecidableEq

/-- From src/chunk_from_middle.rs: `ChunksFromMiddle::try_new`. For each
`index` in `0..27`, forms `middle_chunk + index_to_chunk_pos_bounds(index, 3)
+ splat(-1)` and pushes `chunk_hashmap.get(..).unwrap()`; a failed lookup
panics. On completing the loop it returns `Some(Self { chunks })`. -/
def ChunksFromMiddle.try_new (chunk_hashmap : ChunkStore) (middle_chunk : ChunkPos) :
    TryNewResult :=
  let collect := (List.range
      (CHUNKS_FROM_MIDDLE_SIZE * CHUNKS_FROM_MIDDLE_SIZE * CHUNKS_FROM_MIDDLE_SIZE)).foldl
    (fun acc index =>
      acc.bind (fun chunks =>
        let offset := index_to_chunk_pos_bounds index CHUNKS_FROM_MIDDLE_SIZE +
          ChunkPos.splat (-1)
        (chunk_hashmap.get (middle_chunk + offset)).map (fun c => chunks ++ [c])))
    (some [])
  match collect with
  | none => .panicked
  | some chunks => .returned (some ⟨chunks⟩)

/-- From src/positions.rs: `VoxelPos::from_ivec3` — each component is clamped
below at 0 (`.max(0) as usize`). -/
def VoxelPos.from_ivec3 (p : ℤ × ℤ × ℤ) : VoxelPos :=
  ⟨(max p.1 0).toNat, (max p.2.1 0).toNat, (max p.2.2 0).toNat⟩

/-- From src/positions.rs: componentwise `Div<usize>` for `VoxelPos`. -/
def VoxelPos.divScalar (p : VoxelPos) (d : ℕ) : VoxelPos := ⟨p.x / d, p.y / d, p.z / d⟩

/-- From src/positions.rs: componentwise `Rem<usize>` for `VoxelPos`. -/
def VoxelPos.modScalar (p : VoxelPos) (d : ℕ) : VoxelPos := ⟨p.x % d, p.y % d, p.z % d⟩

/-- From src/positions.rs: `VoxelPos::to_i32`. -/
def VoxelPos.to_i32 (p : VoxelPos) : ChunkPos := ⟨(p.x : ℤ), (p.y : ℤ), (p.z : ℤ)⟩

/-- From src/chunk_from_middle.rs: `ChunksFromMiddle::get_voxel`. Biases the
signed offset by one chunk width, clamps components below at 0
(`VoxelPos::from_ivec3`), splits into a which-of-27-chunks coordinate
(division by `CHUNK_SIZE`) and an in-chunk coordinate (remainder), and
indexes `self.chunks[chunk_index][voxel_pos]`. Both the `Vec` index and the
in-chunk index can go out of range; panics are modelled as `none`. -/
def ChunksFromMiddle.get_voxel (cfm : ChunksFromMiddle) (p : ℤ × ℤ × ℤ) : Option Voxel :=
  let voxel_pos := VoxelPos.from_ivec3
    (p.1 + (CHUNK_SIZE : ℤ), p.2.1 + (CHUNK_SIZE : ℤ), p.2.2 + (CHUNK_SIZE : ℤ))
  let chunk_pos := (voxel_pos.divScalar CHUNK_SIZE).to_i32
  let voxel_pos := voxel_pos.modScalar CHUNK_SIZE
  let chunk_index := chunk_pos_to_index_bounds chunk_pos CHUNKS_FROM_MIDDLE_SIZE
  (List.get? cfm.chunks chunk_index.toNat).bind
    (fun chunk => chunk.get_voxel_pos voxel_pos)

/-- Floor of the base-2 logarithm, by structural recursion on a fuel bound
(used with fuel 64, enough for every value below `2^64`). -/
def flog2 : ℕ → ℕ → ℕ
  | 0, _ => 0
  | fuel + 1, n => if n ≤ 1 then 0 else flog2 fuel (n / 2) + 1

/-- Round `a / 2^k` to the nearest integer, ties to even — the rounding mode
of every IEEE-754 binary operation in the source (`as f32` conversions, `f32`
addition, `f32::round_ties_even`). -/
def roundHalfEven (a : ℤ) (k : ℕ) : ℤ :=
  if 2 * (a % 2 ^ k) < 2 ^ k then a / 2 ^ k
  else if (2 : ℤ) ^ k < 2 * (a % 2 ^ k) then a / 2 ^ k + 1
  else if (a / 2 ^ k) % 2 = 0 then a / 2 ^ k else a / 2 ^ k + 1

/-- Exact model of rounding a real value to `f32` (round to nearest, ties to
even), in fixed point: the argument and result are the value scaled by
`2^30`. A nonzero scaled value `v` has floating-point exponent
`flog2 |v| - 30` and unit-in-the-last-place `2^(flog2 |v| - 53)`, i.e.
`2^(flog2 |v| - 23)` in scaled units; when that grid is no coarser than the
fixed-point grid the value is exactly representable. Valid whenever
`2^-30 ≤ |value| < 2^34` (covers every value arising from `i32` inputs in
`WorldPos::to_voxel_pos`; overflow and subnormals cannot occur there). -/
def fround30 (v : ℤ) : ℤ :=
  if v = 0 then 0
  else
    let e := flog2 64 v.natAbs
    if e ≤ 23 then v
    else roundHalfEven v (e - 23) * 2 ^ (e - 23)

/-- From src/positions.rs: the chunk-coordinate computation of
`WorldPos::to_voxel_pos` for one component, in exact `f32` arithmetic scaled
by `2^30`:
`(((x - CHUNK_SIZE/2) as f32 + 0.5) / CHUNK_SIZE as f32).round_ties_even() as i32`.
The `as f32` conversion and the addition each round (ties to even); the
division by 32 only decrements the exponent, which is exact here (the scaled
dividend is always a multiple of 32 — its value has magnitude at least 1/2),
so it is modelled as exact division; `round_ties_even` rounds the value
(scaled by `2^30`) to an integer; `as i32` is the identity on the resulting
in-range integrals. -/
def chunkCoordinate (x : ℤ) : ℤ :=
  let a := fround30 ((x - (CHUNK_SIZE : ℤ) / 2) * 2 ^ 30)
  let b := fround30 (a + 2 ^ 29)
  let c := fround30 (b / (CHUNK_SIZE : ℤ))
  roundHalfEven c 30

/-- From src/positions.rs: `WorldPos` (an `i32` triple). -/
structure WorldPos where
  x : ℤ
  y : ℤ
  z : ℤ
deriving DecidableEq, Repr

namespace WorldPos

/-- From src/positions.rs: the voxel-coordinate computation of
`WorldPos::to_voxel_pos` for one component:
`((x % CHUNK_SIZE) + CHUNK_SIZE) % CHUNK_SIZE` with Rust's truncated `%`
(`Int.tmod`), then cast `as usize`. -/
def voxelComponent (x : ℤ) : ℕ :=
  ((Int.tmod x (CHUNK_SIZE : ℤ) + (CHUNK_SIZE : ℤ)).tmod (CHUNK_SIZE : ℤ)).toNat

/-- From src/positions.rs: `WorldPos::to_voxel_pos`. -/
def to_voxel_pos (pos : WorldPos) : VoxelPos × ChunkPos :=
  (⟨voxelComponent pos.x, voxelComponent pos.y, voxelComponent pos.z⟩,
   ⟨chunkCoordinate pos.x, chunkCoordinate pos.y, chunkCoordinate pos.z⟩)

/-- From src/positions.rs: `WorldPos::from_voxel_pos`
`(voxel + chunk * CHUNK_SIZE)` per component. -/
def from_voxel_pos (voxel_pos : VoxelPos) (chunk_pos : ChunkPos) : WorldPos :=
  ⟨(voxel_pos.x : ℤ) + chunk_pos.x * (CHUNK_SIZE : ℤ),
   (voxel_pos.y : ℤ) + chunk_pos.y * (CHUNK_SIZE : ℤ),
   (voxel_pos.z : ℤ) + chunk_pos.z * (CHUNK_SIZE : ℤ)⟩

end WorldPos

/-- From src/constants.rs: `MAX_DATA_TASKS`. -/
def MAX_DATA_TASKS : ℕ := 64

/-- From src/constants.rs: `MAX_MESH_TASKS`. -/
def MAX_MESH_TASKS : ℕ := 64

/-- From src/constants.rs: `MAX_CHUNK_LOADS`. -/
def MAX_CHUNK_LOADS : ℕ := 26000

/-- The comparator of the source's three `sort_by` calls: order by squared
distance to a reference point. -/
def distLe (o : ChunkPos) (a b : ChunkPos) : Prop :=
  ChunkPos.distance_squared a o ≤ ChunkPos.distance_squared b o

instance (o : ChunkPos) : DecidableRel (distLe o) := fun _ _ =>
  inferInstanceAs (Decidable (_ ≤ _))

instance (o : ChunkPos) : IsTotal ChunkPos (distLe o) := ⟨fun _ _ => le_total _ _⟩

instance (o : ChunkPos) : IsTrans ChunkPos (distLe o) := ⟨fun _ _ _ => le_trans⟩

/-- From src/chunk_loading.rs: `ChunkLoader::make_spherical_offsets`.
Enumerates the `(2*radius+1)³` raster indices, maps each through
`index_to_chunk_pos_bounds` and recentres by `splat(r/2)`, then sorts by
squared distance to the origin (Rust `sort_by` is a stable sort whose
comparator here is the total preorder on the squared distances; it is
modelled by the stable `List.insertionSort`). Indices are modelled as
unbounded integers: the `u32`/`i32` casts of the source are the identity for
every radius whose cube of side `2*radius+1` fits the machine width. -/
def ChunkLoader.make_spherical_offsets (radius : ℕ) : List ChunkPos :=
  let r := 2 * radius + 1
  let sampling_offsets := (List.range (r * r * r)).map
    (fun i => index_to_chunk_pos_bounds i r - ChunkPos.splat ((r : ℤ) / 2))
  List.insertionSort (distLe ⟨0, 0, 0⟩) sampling_offsets

/-- Poll view of one background mesh task (`Task<Option<ChunkMesh>>`):
either not yet finished, or finished with `None` (no mesh produced) or
`Some` mesh. The mesh payload is irrelevant to the scheduler claims and is
abstracted to a numeric tag. -/
inductive TaskPoll where
  | pending
  | ready (r : Option ℕ)
deriving DecidableEq, Repr

/-- From src/world.rs: the `World` resource. `chunks` is the voxel store;
`data_tasks` is modelled by its key set (`HashMap<ChunkPos, Option<Task>>`;
the task values play no role in the claims settled here); `mesh_tasks` is
the in-flight mesh job `Vec`; `chunk_entities` maps a coordinate to its
rendering handle (entity ids modelled as naturals, `next_entity` the fresh
id counter standing for Bevy's entity allocator). -/
structure World where
  chunks : ChunkStore
  load_data_queue : List ChunkPos
  load_mesh_queue : List ChunkPos
  unload_data_queue : List ChunkPos
  unload_mesh_queue : List ChunkPos
  data_tasks : List ChunkPos
  mesh_tasks : List (ChunkPos × Option TaskPoll)
  chunk_entities : ChunkPos → Option ℕ
  next_entity : ℕ

/-- `HashMap::insert` on the entity map (`chunk_entities` is modelled as the
finite map it implements, a function to `Option`). -/
def insertEntity (m : ChunkPos → Option ℕ) (c : ChunkPos) (e : ℕ) : ChunkPos → Option ℕ :=
  fun x => if x = c then some e else m x

/-- Does this poll view hold a finished task that produced a (non-empty)
mesh? -/
def is_nonempty_result : Option TaskPoll → Bool
  | some (.ready (some _)) => true
  | _ => false

/-- From src/chunk_loading.rs: the per-observer `ChunkLoader` component
(the fields exercised by the claims; `chunks_per_frame` and the grid
sampling offsets are unused by the embedded systems). -/
structure ChunkLoader where
  prev_chunk_pos : ChunkPos
  data_load_queue : List ChunkPos
  mesh_load_queue : List ChunkPos
  data_unload_queue : List ChunkPos
  mesh_unload_queue : List ChunkPos
  data_sampling_offsets : List ChunkPos
  mesh_sampling_offsets : List ChunkPos

namespace ChunkLoader

/-- From src/chunk_loading.rs: the per-coordinate body of the
`ChunkLoader::load_chunks` drain loop: a coordinate that is not busy
(resident, globally queued, or in flight) is pushed onto the global
`load_data_queue` and removed (first occurrence) from the global
`unload_data_queue`. -/
def load_chunks_step (w : World) (c : ChunkPos) : World :=
  if w.chunks.contains_key c ∨ c ∈ w.load_data_queue ∨ c ∈ w.data_tasks then w
  else
    { w with
      load_data_queue := w.load_data_queue ++ [c]
      unload_data_queue := w.unload_data_queue.erase c }

def load_chunks (loader : ChunkLoader) (world : World) : ChunkLoader × World :=
  if MAX_DATA_TASKS ≤ world.data_tasks.length then (loader, world)
  else
    let data_len := loader.data_load_queue.length
    let n := min MAX_CHUNK_LOADS data_len
    let drained := loader.data_load_queue.take n
    let rest := loader.data_load_queue.drop n
    let world := drained.foldl load_chunks_step world
    ({ loader with data_load_queue := rest }, world)

/-- From src/chunk_loading.rs, lines 259-262: the neighbourhood-residency
check of `load_mesh` — every one of the 27 `ADJACENT_CHUNK_DIRECTIONS`
offsets of the coordinate is a key of the voxel store. -/
def all_neighbours_resident (s : ChunkStore) (c : ChunkPos) : Prop :=
  ∀ offset ∈ ADJACENT_CHUNK_DIRECTIONS, s.contains_key (c + offset)

instance (s : ChunkStore) (c : ChunkPos) : Decidable (all_neighbours_resident s c) :=
  inferInstanceAs (Decidable (∀ offset ∈ ADJACENT_CHUNK_DIRECTIONS, _))

/-- From src/chunk_loading.rs: the per-coordinate body of the
`ChunkLoader::load_mesh` drain loop (`wr.2` is the retry list). A coordinate
is busy when it is already in the global `load_mesh_queue` or some chunk of
its 3×3×3 neighbourhood (`ADJACENT_CHUNK_DIRECTIONS`) is not resident; a
busy coordinate goes to the retry list, an admitted one is pushed onto the
global queue and removed from the global mesh-unload queue. -/
def load_mesh_step (wr : World × List ChunkPos) (c : ChunkPos) : World × List ChunkPos :=
  if c ∈ wr.1.load_mesh_queue ∨ ¬ all_neighbours_resident wr.1.chunks c then
    (wr.1, wr.2 ++ [c])
  else
    ({ wr.1 with
        load_mesh_queue := wr.1.load_mesh_queue ++ [c]
        unload_mesh_queue := wr.1.unload_mesh_queue.erase c },
     wr.2)

/-- From src/chunk_loading.rs: `ChunkLoader::load_mesh`, for one loader:
drains the first `min(MAX_CHUNK_LOADS, len)` coordinates of the loader's
mesh-load queue through `load_mesh_step` and appends the retry list back
onto the loader's queue. -/
def load_mesh (loader : ChunkLoader) (world : World) : ChunkLoader × World :=
  let mesh_data_len := loader.mesh_load_queue.length
  let n := min MAX_CHUNK_LOADS mesh_data_len
  let drained := loader.mesh_load_queue.take n
  let rest := loader.mesh_load_queue.drop n
  let step := drained.foldl load_mesh_step (world, [])
  ({ loader with mesh_load_queue := rest ++ step.2 }, step.1)

/-- From src/chunk_loading.rs: `ChunkLoader::detect_move`, for one loader
whose observer now samples chunk coordinate `chunk_pos` (the source derives
it from the `GlobalTransform`). No-op when the coordinate is unchanged.
Otherwise the four sampled areas are collected (`HashSet` collection is
modelled as insertion-ordered deduplicated lists — every claim settled here
is order-independent), the set differences are appended to the loader's four
queues, coordinates of the (whole) unload queues are removed from the global
load queues, loads also present in the unload queues are dropped
(`retain`), and both load queues are re-sorted by distance to the observer. -/
def detect_move (loader : ChunkLoader) (chunk_pos : ChunkPos) (world : World) :
    ChunkLoader × World :=
  if chunk_pos = loader.prev_chunk_pos then (loader, world)
  else
    let prev := loader.prev_chunk_pos
    let load_data_area := (loader.data_sampling_offsets.map (fun o => chunk_pos + o)).dedup
    let unload_data_area := (loader.data_sampling_offsets.map (fun o => prev + o)).dedup
    let load_mesh_area := (loader.mesh_sampling_offsets.map (fun o => chunk_pos + o)).dedup
    let unload_mesh_area := (loader.mesh_sampling_offsets.map (fun o => prev + o)).dedup
    let data_load := load_data_area.filter (fun c => decide (c ∉ unload_data_area))
    let data_unload := unload_data_area.filter (fun c => decide (c ∉ load_data_area))
    let mesh_load := load_mesh_area.filter (fun c => decide (c ∉ unload_mesh_area))
    let mesh_unload := unload_mesh_area.filter (fun c => decide (c ∉ load_mesh_area))
    let data_load_queue := loader.data_load_queue ++ data_load
    let data_unload_queue := loader.data_unload_queue ++ data_unload
    let mesh_load_queue := loader.mesh_load_queue ++ mesh_load
    let mesh_unload_queue := loader.mesh_unload_queue ++ mesh_unload
    let world :=
      { world with
        load_data_queue := data_unload_queue.foldl (fun q c => q.erase c) world.load_data_queue
        load_mesh_queue :=
          mesh_unload_queue.foldl (fun q c => q.erase c) world.load_mesh_queue }
    let data_load_queue := data_load_queue.filter (fun c => decide (c ∉ data_unload_queue))
    let mesh_load_queue := mesh_load_queue.filter (fun c => decide (c ∉ mesh_unload_queue))
    let data_load_queue := List.insertionSort (distLe chunk_pos) data_load_queue
    let mesh_load_queue := List.insertionSort (distLe chunk_pos) mesh_load_queue
    ({ loader with
        prev_chunk_pos := chunk_pos
        data_load_queue := data_load_queue
        data_unload_queue := data_unload_queue
        mesh_load_queue := mesh_load_queue
        mesh_unload_queue := mesh_unload_queue },
     world)

end ChunkLoader

namespace World

/-- From src/world.rs: `World::start_mesh_tasks`. Sorts the global mesh-load
queue by distance to the loader, drains up to the free task slots, builds the
neighbour accessor for each drained coordinate (`try_new`; its `unwrap`
panic propagates, modelled as `none`) and pushes an in-flight task entry.
The spawned task's poll view is `pending`. -/
def start_mesh_tasks (world : World) (loader_pos : ChunkPos) : Option World :=
  let sorted := List.insertionSort (distLe loader_pos) world.load_mesh_queue
  let tasks_left := min (MAX_MESH_TASKS - world.mesh_tasks.length) sorted.length
  let drained := sorted.take tasks_left
  let rest := sorted.drop tasks_left
  let step := drained.foldl
    (fun (acc : Option (List (ChunkPos × Option TaskPoll))) c =>
      acc.bind (fun ts =>
        match ChunksFromMiddle.try_new world.chunks c with
        | .panicked => none
        | .returned none => some ts
        | .returned (some _) => some (ts ++ [(c, some .pending)])))
    (some world.mesh_tasks)
  step.map (fun ts => { world with load_mesh_queue := rest, mesh_tasks := ts })

/-- From src/world.rs: the per-task body of the `World::join_mesh` poll
loop (the accumulator holds the kept tasks, the entity map and the
fresh-entity counter). Each task slot is taken: an already-empty slot is
dropped (with a warning) by the final retain; an unfinished poll puts the
task back; a finished poll with no mesh just continues (its slot, now
empty, is dropped by the retain, and the entity map is untouched); a
finished poll with a mesh despawns the entity recorded for the coordinate,
spawns a fresh one and records it. -/
def join_mesh_step (acc : List (ChunkPos × Option TaskPoll) × (ChunkPos → Option ℕ) × ℕ)
    (t : ChunkPos × Option TaskPoll) :
    List (ChunkPos × Option TaskPoll) × (ChunkPos → Option ℕ) × ℕ :=
  match t with
  | (_, none) => acc
  | (c, some .pending) => (acc.1 ++ [(c, some .pending)], acc.2.1, acc.2.2)
  | (_, some (.ready none)) => acc
  | (c, some (.ready (some _))) =>
      (acc.1, insertEntity acc.2.1 c acc.2.2, acc.2.2 + 1)

/-- From src/world.rs: `World::join_mesh` (the state bookkeeping): folds
`join_mesh_step` over the in-flight mesh tasks and retains the tasks whose
poll did not complete. -/
def join_mesh (world : World) : World :=
  let step := world.mesh_tasks.foldl join_mesh_step
    ([], world.chunk_entities, world.next_entity)
  { world with
    mesh_tasks := step.1
    chunk_entities := step.2.1
    next_entity := step.2.2 }

end World

/-- `u32::trailing_zeros` by structural recursion (fuel 32 = the bit width;
`tzAux 32 0 = 32`, matching `u32::trailing_zeros(0)`). -/
def tzAux : ℕ → ℕ → ℕ
  | 0, _ => 0
  | fuel + 1, v => if v % 2 = 1 then 0 else tzAux fuel (v / 2) + 1

/-- `u32::trailing_zeros`. -/
def u32_trailing_zeros (v : ℕ) : ℕ := tzAux 32 v

/-- `u32::trailing_ones` by structural recursion. -/
def toAux : ℕ → ℕ → ℕ
  | 0, _ => 0
  | fuel + 1, v => if v % 2 = 1 then toAux fuel (v / 2) + 1 else 0

/-- `u32::trailing_ones`. -/
def u32_trailing_ones (v : ℕ) : ℕ := toAux 32 v

/-- Bitwise `!` on `u32`. -/
def u32_not (m : ℕ) : ℕ := (2 ^ 32 - 1) ^^^ m

/-- Modelled from the spec and the construction call in src/greedy_mesher.rs
(`GreedyQuad::new(row, y as usize, width, height as usize)`): the axis-aligned
rectangle `[row, row+w) × [y, y+h)` extracted by the binary greedy mesher.
The `GreedyQuad` type itself is imported from a chunk_mesh module version
that is not in src/. -/
structure GreedyQuad where
  row : ℕ
  y : ℕ
  w : ℕ
  h : ℕ
deriving DecidableEq, Repr

/-- The input of `greedy_mesh_binary_plane`: `[u32; 32]`, modelled as a
function from row index to the row's 32-bit word (rows outside `0..32` are
never read). -/
def Plane : Type := ℕ → ℕ

/-- In-place array write `data[i] = v`. -/
def planeUpdate (d : Plane) (i : ℕ) (v : ℕ) : Plane :=
  fun j => if j = i then v else d j

/-- From src/greedy_mesher.rs: the horizontal-growth loop of
`greedy_mesh_binary_plane` (`while row + width < lod_size { .. }`). Starting
at column `idx`, keeps absorbing rows whose bits at `[y, y+height)` equal
`height_as_mask` (clearing those bits via `&= !mask`), and returns how many
rows were absorbed together with the updated plane. Structural fuel: the
loop runs at most `lod_size` times. -/
def growAux (lod_size y hmask mask : ℕ) : ℕ → ℕ → Plane → ℕ × Plane
  | 0, _, d => (0, d)
  | fuel + 1, idx, d =>
    if idx < lod_size then
      if (d idx >>> y) &&& hmask = hmask then
        let d1 := planeUpdate d idx (d idx &&& u32_not mask)
        let r := growAux lod_size y hmask mask fuel (idx + 1) d1
        (r.1 + 1, r.2)
      else (0, d)
    else (0, d)

/-- From src/greedy_mesher.rs: the per-row `while (y as usize) < lod_size`
loop of `greedy_mesh_binary_plane`. Skips to the first set bit at or above
`y` (`trailing_zeros`; the `continue` with `y >= lod_size` exits the loop),
measures the run height (`trailing_ones`), builds
`height_as_mask = checked_shl(1, height).map_or(!0, v - 1)` and
`mask = height_as_mask << y` (`u32` shift keeps the low 32 bits), grows the
quad horizontally, emits it and resumes above the run. Structural fuel: `y`
grows by at least one per iteration, so `lod_size + 1` iterations suffice. -/
def rowLoop (lod_size row : ℕ) : ℕ → ℕ → Plane → List GreedyQuad × Plane
  | 0, _, d => ([], d)
  | fuel + 1, y, d =>
    if y < lod_size then
      let y1 := y + u32_trailing_zeros (d row >>> y)
      if lod_size ≤ y1 then ([], d)
      else
        let height := u32_trailing_ones (d row >>> y1)
        let height_as_mask := if 32 ≤ height then 2 ^ 32 - 1 else 2 ^ height - 1
        let mask := (height_as_mask <<< y1) % 2 ^ 32
        let g := growAux lod_size y1 height_as_mask mask lod_size (row + 1) d
        let r := rowLoop lod_size row fuel (y1 + height) g.2
        (⟨row, y1, g.1 + 1, height⟩ :: r.1, r.2)
    else ([], d)

/-- From src/greedy_mesher.rs: the `for row in 0..data.len()` loop of
`greedy_mesh_binary_plane` over the 32 rows, threading the mutated plane. -/
def greedyAux (lod_size : ℕ) : ℕ → ℕ → Plane → List GreedyQuad × Plane
  | 0, _, d => ([], d)
  | n + 1, row, d =>
    let r := rowLoop lod_size row (lod_size + 1) 0 d
    let rest := greedyAux lod_size n (row + 1) r.2
    (r.1 ++ rest.1, rest.2)

/-- From src/greedy_mesher.rs: `greedy_mesh_binary_plane(data, lod_size)`
(the produced quad list; `data.len()` is 32). -/
def greedy_mesh_binary_plane (data : Plane) (lod_size : ℕ) : List GreedyQuad :=
  (greedyAux lod_size 32 0 data).1

/-- The cells of the 32×32 plane covered by a quad. -/
def GreedyQuad.covers (q : GreedyQuad) (a b : ℕ) : Prop :=
  q.row ≤ a ∧ a < q.row + q.w ∧ q.y ≤ b ∧ b < q.y + q.h

instance (q : GreedyQuad) (a b : ℕ) : Decidable (q.covers a b) :=
  inferInstanceAs (Decidable (_ ∧ _ ∧ _ ∧ _))

/-- Specification predicate for one run of the per-row loop `rowLoop` at row
`row` starting from bit `y` on plane `d`, producing quads `qs` and plane `d1`:
shape bounds, increasing disjoint y-runs, the own row left untouched, the own
row's bits at or above `y` exactly covered, cells of other rows covered by some
quad exactly when their bit was set and is now cleared, and the plane only ever
shrinks. -/
def RowLoopOut (row y : ℕ) (d : Plane) (qs : List GreedyQuad) (d1 : Plane) : Prop :=
  (∀ q ∈ qs, q.row = row ∧ y ≤ q.y ∧ q.y + q.h ≤ 32 ∧ 1 ≤ q.h ∧ 1 ≤ q.w ∧
    q.row + q.w ≤ 32) ∧
  qs.Pairwise (fun q1 q2 => q1.y + q1.h ≤ q2.y) ∧
  d1 row = d row ∧
  (∀ b, y ≤ b → ((d row).testBit b = true ↔ ∃ q ∈ qs, q.y ≤ b ∧ b < q.y + q.h)) ∧
  (∀ a b, a ≠ row → (∃ q ∈ qs, q.covers a b) →
    (d a).testBit b = true ∧ (d1 a).testBit b = false) ∧
  (∀ a b, a ≠ row → ¬(∃ q ∈ qs, q.covers a b) → (d1 a).testBit b = (d a).testBit b) ∧
  (∀ i, d1 i ≤ d i)

/-- Specification predicate for the tail of the row iteration of
`greedy_mesh_binary_plane` from row `row` on plane `d`: the produced quads lie
in rows at or after `row` and within the 32×32 plane, are pairwise disjoint,
and cover exactly the set bits of `d` in rows at or after `row`. -/
def GreedyAuxOut (row : ℕ) (d : Plane) (qs : List GreedyQuad) : Prop :=
  (∀ q ∈ qs, row ≤ q.row ∧ q.row + q.w ≤ 32 ∧ q.y + q.h ≤ 32 ∧ 1 ≤ q.w ∧ 1 ≤ q.h) ∧
  qs.Pairwise (fun q1 q2 => ∀ a b, ¬(q1.covers a b ∧ q2.covers a b)) ∧
  (∀ a b, row ≤ a → a < 32 → b < 32 →
    ((d a).testBit b = true ↔ ∃ q ∈ qs, q.covers a b))

end VoxelEngine

namespace VoxelEngine

section OffsetLemmas

/-- Digit decomposition of an index in base `r`: the three coordinate digits
recover the index. -/
theorem digit_decomp (a r : ℕ) :
    a = a / (r * r) * (r * r) + a / r % r * r + a % r := by
  have h1 := Nat.div_add_mod a r
  have h2 := Nat.div_add_mod (a / r) r
  have h3 : a / r / r = a / (r * r) := Nat.div_div_eq_div_mul a r r
  rw [h3] at h2
  conv_lhs => rw [← h1]
  conv_lhs => rw [← h2]
  ring

theorem index_map_injective (r : ℕ) (half : ℤ) :
    Function.Injective (fun i => index_to_chunk_pos_bounds i r - ChunkPos.splat half) := by
  intro a b h
  simp only [index_to_chunk_pos_bounds, ChunkPos.splat, ChunkPos.sub_def,
    ChunkPos.mk.injEq] at h
  obtain ⟨hx, hy, hz⟩ := h
  have hx' : a % r = b % r := by omega
  have hy' : a / r % r = b / r % r := by omega
  have hz' : a / (r * r) = b / (r * r) := by omega
  calc a = a / (r * r) * (r * r) + a / r % r * r + a % r := digit_decomp a r
    _ = b / (r * r) * (r * r) + b / r % r * r + b % r := by rw [hx', hy', hz']
    _ = b := (digit_decomp b r).symm

theorem index_map_component (i r : ℕ) (half : ℤ) :
    index_to_chunk_pos_bounds i r - ChunkPos.splat half =
      ⟨((i % r : ℕ) : ℤ) - half, ((i / r % r : ℕ) : ℤ) - half,
        ((i / (r * r) : ℕ) : ℤ) - half⟩ := by
  simp only [index_to_chunk_pos_bounds, ChunkPos.splat, ChunkPos.sub_def]

theorem index_map_mem (radius : ℕ) (p : ChunkPos) :
    (p ∈ (List.range ((2 * radius + 1) * (2 * radius + 1) * (2 * radius + 1))).map
        (fun i => index_to_chunk_pos_bounds i (2 * radius + 1) -
          ChunkPos.splat (((2 * radius + 1 : ℕ) : ℤ) / 2))) ↔
      (-(radius : ℤ) ≤ p.x ∧ p.x ≤ radius ∧ -(radius : ℤ) ≤ p.y ∧ p.y ≤ radius ∧
        -(radius : ℤ) ≤ p.z ∧ p.z ≤ radius) := by
  obtain ⟨px, py, pz⟩ := p
  dsimp only
  have hrpos : 0 < 2 * radius + 1 := by omega
  set r := 2 * radius + 1 with hrdef
  have hcast : ((r : ℕ) : ℤ) = 2 * (radius : ℤ) + 1 := by rw [hrdef]; push_cast; ring
  have hhalf : ((r : ℕ) : ℤ) / 2 = (radius : ℤ) := by omega
  constructor
  · rintro hmem
    rw [List.mem_map] at hmem
    obtain ⟨i, hi, hpi⟩ := hmem
    rw [List.mem_range] at hi
    rw [index_map_component, hhalf, ChunkPos.mk.injEq] at hpi
    obtain ⟨e1, e2, e3⟩ := hpi
    have h1 : i % r < r := Nat.mod_lt _ hrpos
    have h2 : i / r % r < r := Nat.mod_lt _ hrpos
    have h3 : i / (r * r) < r := by
      rw [Nat.div_lt_iff_lt_mul (by positivity)]
      calc i < r * r * r := hi
        _ = r * (r * r) := by ring
    have c1 : ((i % r : ℕ) : ℤ) < ((r : ℕ) : ℤ) := by exact_mod_cast h1
    have c2 : ((i / r % r : ℕ) : ℤ) < ((r : ℕ) : ℤ) := by exact_mod_cast h2
    have c3 : ((i / (r * r) : ℕ) : ℤ) < ((r : ℕ) : ℤ) := by exact_mod_cast h3
    have n1 : (0 : ℤ) ≤ ((i % r : ℕ) : ℤ) := Int.natCast_nonneg _
    have n2 : (0 : ℤ) ≤ ((i / r % r : ℕ) : ℤ) := Int.natCast_nonneg _
    have n3 : (0 : ℤ) ≤ ((i / (r * r) : ℕ) : ℤ) := Int.natCast_nonneg _
    generalize hA : ((i % r : ℕ) : ℤ) = A at c1 n1 e1
    generalize hB : ((i / r % r : ℕ) : ℤ) = B at c2 n2 e2
    generalize hC : ((i / (r * r) : ℕ) : ℤ) = C at c3 n3 e3
    refine ⟨?_, ?_, ?_, ?_, ?_, ?_⟩ <;> omega
  · rintro ⟨h1, h2, h3, h4, h5, h6⟩
    rw [List.mem_map]
    have hx : (px + radius).toNat < r := by omega
    have hy : (py + radius).toNat < r := by omega
    have hz : (pz + radius).toNat < r := by omega
    set X := (px + radius).toNat with hX
    set Y := (py + radius).toNat with hY
    set Z := (pz + radius).toNat with hZ
    refine ⟨X + r * Y + r * r * Z, ?_, ?_⟩
    · rw [List.mem_range]
      have hYZ : Y + r * Z < r * r := by
        calc Y + r * Z < r + r * Z := by omega
          _ = r * (1 + Z) := by ring
          _ ≤ r * r := Nat.mul_le_mul_left r (by omega)
      have hfull : X + r * (Y + r * Z) < r * (r * r) := by
        calc X + r * (Y + r * Z) < r + r * (Y + r * Z) := by omega
          _ = r * (1 + (Y + r * Z)) := by ring
          _ ≤ r * (r * r) := Nat.mul_le_mul_left r (by omega)
      calc X + r * Y + r * r * Z = X + r * (Y + r * Z) := by ring
        _ < r * (r * r) := hfull
        _ = r * r * r := by ring
    · have hsplit : X + r * Y + r * r * Z = X + r * (Y + r * Z) := by ring
      have e1 : (X + r * Y + r * r * Z) % r = X := by
        rw [hsplit, Nat.add_mul_mod_self_left, Nat.mod_eq_of_lt hx]
      have ediv : (X + r * Y + r * r * Z) / r = Y + r * Z := by
        rw [hsplit, Nat.add_mul_div_left _ _ hrpos, Nat.div_eq_of_lt hx, Nat.zero_add]
      have e2 : (X + r * Y + r * r * Z) / r % r = Y := by
        rw [ediv, Nat.add_mul_mod_self_left, Nat.mod_eq_of_lt hy]
      have e3 : (X + r * Y + r * r * Z) / (r * r) = Z := by
        rw [← Nat.div_div_eq_div_mul, ediv, Nat.add_mul_div_left _ _ hrpos,
          Nat.div_eq_of_lt hy, Nat.zero_add]
      rw [index_map_component, hhalf, e1, e2, e3, ChunkPos.mk.injEq]
      refine ⟨?_, ?_, ?_⟩ <;> omega

end OffsetLemmas

/-- C9: for every radius `r`, `make_spherical_offsets(r)` has exactly
`(2r+1)³` entries, they are pairwise distinct, they are exactly the integer
offsets whose components lie in `[-r, r]` (no omissions, no duplicates), and
the list is sorted non-decreasingly by squared Euclidean distance from the
origin. -/
theorem make_spherical_offsets_spec (radius : ℕ) :
    (ChunkLoader.make_spherical_offsets radius).length = (2 * radius + 1) ^ 3 ∧
      (ChunkLoader.make_spherical_offsets radius).Nodup ∧
      (∀ p : ChunkPos, p ∈ ChunkLoader.make_spherical_offsets radius ↔
        (-(radius : ℤ) ≤ p.x ∧ p.x ≤ radius ∧ -(radius : ℤ) ≤ p.y ∧ p.y ≤ radius ∧
          -(radius : ℤ) ≤ p.z ∧ p.z ≤ radius)) ∧
      (ChunkLoader.make_spherical_offsets radius).Pairwise
        (fun lhs rhs => ChunkPos.distance_squared lhs ⟨0, 0, 0⟩ ≤
          ChunkPos.distance_squared rhs ⟨0, 0, 0⟩) := by
  have hdef : ChunkLoader.make_spherical_offsets radius =
      List.insertionSort (distLe ⟨0, 0, 0⟩)
        ((List.range ((2 * radius + 1) * (2 * radius + 1) * (2 * radius + 1))).map
          (fun i => index_to_chunk_pos_bounds i (2 * radius + 1) -
            ChunkPos.splat (((2 * radius + 1 : ℕ) : ℤ) / 2))) := rfl
  have hperm := List.perm_insertionSort (distLe ⟨0, 0, 0⟩)
    ((List.range ((2 * radius + 1) * (2 * radius + 1) * (2 * radius + 1))).map
      (fun i => index_to_chunk_pos_bounds i (2 * radius + 1) -
        ChunkPos.splat (((2 * radius + 1 : ℕ) : ℤ) / 2)))
  refine ⟨?_, ?_, ?_, ?_⟩
  · rw [hdef, hperm.length_eq, List.length_map, List.length_range]
    ring
  · rw [hdef, hperm.nodup_iff]
    exact (List.nodup_range _).map (index_map_injective _ _)
  · intro p
    rw [hdef, hperm.mem_iff]
    exact index_map_mem radius p
  · rw [hdef]
    exact List.sorted_insertionSort (distLe ⟨0, 0, 0⟩) _

section FloatLemmas

/-- `flog2` computes the floor of the base-2 logarithm below its fuel bound. -/
theorem flog2_spec : ∀ (fuel n : ℕ), 1 ≤ n → n < 2 ^ fuel →
    2 ^ flog2 fuel n ≤ n ∧ n < 2 ^ (flog2 fuel n + 1)
  | 0, n, h1, h2 => absurd h2 (by simp; omega)
  | fuel + 1, n, h1, h2 => by
    rw [flog2]
    by_cases hn : n ≤ 1
    · simp only [hn, if_true]
      constructor
      · simpa using h1
      · have : n = 1 := le_antisymm hn h1
        simp [this]
    · simp only [hn, if_false]
      have hdiv1 : 1 ≤ n / 2 := by omega
      have hdiv2 : n / 2 < 2 ^ fuel := by
        have h3 : n < 2 * 2 ^ fuel := by
          calc n < 2 ^ (fuel + 1) := h2
            _ = 2 * 2 ^ fuel := by ring
        exact Nat.div_lt_of_lt_mul h3
      obtain ⟨ih1, ih2⟩ := flog2_spec fuel (n / 2) hdiv1 hdiv2
      constructor
      · calc 2 ^ (flog2 fuel (n / 2) + 1) = 2 * 2 ^ flog2 fuel (n / 2) := by ring
          _ ≤ 2 * (n / 2) := by omega
          _ ≤ n := by omega
      · calc n ≤ 2 * (n / 2) + 1 := by omega
          _ < 2 * 2 ^ (flog2 fuel (n / 2) + 1) := by omega
          _ = 2 ^ (flog2 fuel (n / 2) + 1 + 1) := by ring

/-- `roundHalfEven` of an exact multiple of the grid is exact. -/
theorem roundHalfEven_mul (m : ℤ) (k : ℕ) : roundHalfEven (2 ^ k * m) k = m := by
  have hp : (0 : ℤ) < 2 ^ k := by positivity
  have hmod : (2 ^ k * m) % 2 ^ k = 0 := Int.mul_emod_right _ _
  have hdiv : (2 ^ k * m) / 2 ^ k = m := Int.mul_ediv_cancel_left _ (by positivity)
  rw [roundHalfEven, hmod, hdiv]
  simp [hp]

/-- An `f32`-exactly-representable fixed-point value rounds to itself: if
`v` is a multiple of `2^k` and `|v| < 2^(k+24)` then the 24-bit significand
holds it exactly. -/
theorem fround30_eq_self (v : ℤ) (k : ℕ) (hdvd : (2 : ℤ) ^ k ∣ v)
    (hb : v.natAbs < 2 ^ (k + 24)) (hk : k + 24 ≤ 64) : fround30 v = v := by
  rw [fround30]
  by_cases hv : v = 0
  · simp [hv]
  · simp only [hv, if_false]
    have h1 : 1 ≤ v.natAbs := by
      have := Int.natAbs_pos.mpr hv
      omega
    have h2 : v.natAbs < 2 ^ 64 :=
      lt_of_lt_of_le hb (Nat.pow_le_pow_right (by norm_num) hk)
    set e := flog2 64 v.natAbs with hedef
    obtain ⟨hlow, hhigh⟩ := flog2_spec 64 v.natAbs h1 h2
    have he : e < k + 24 := by
      by_contra hcon
      push_neg at hcon
      have : 2 ^ (k + 24) ≤ 2 ^ e := Nat.pow_le_pow_right (by norm_num) hcon
      rw [← hedef] at hlow
      omega
    by_cases hb23 : e ≤ 23
    · simp [hb23]
    · simp only [hb23, if_false]
      push_neg at hb23
      have hj : e - 23 ≤ k := by omega
      obtain ⟨c, hc⟩ : (2 : ℤ) ^ (e - 23) ∣ v :=
        dvd_trans (pow_dvd_pow 2 hj) hdvd
      rw [hc, roundHalfEven_mul]
      ring

/-- The final rounding step of the chunk-coordinate computation equals
floored division by 32: `round_ties_even((2x-31)/64)` is `⌊x/32⌋`. -/
theorem roundHalfEven_chunk (x : ℤ) :
    roundHalfEven ((2 * x - 31) * 2 ^ 24) 30 = x / 32 := by
  rw [roundHalfEven]
  have e24 : (2 : ℤ) ^ (24 : ℕ) = 16777216 := by norm_num
  have e30 : (2 : ℤ) ^ (30 : ℕ) = 1073741824 := by norm_num
  rw [e24, e30]
  split_ifs <;> omega

/-- Where all three `f32` steps are exact (components up to `2^22` in
magnitude), the chunk coordinate is the floored quotient by `CHUNK_SIZE`. -/
theorem chunkCoordinate_eq_ediv (x : ℤ) (h : x.natAbs ≤ 2 ^ 22) :
    chunkCoordinate x = x / 32 := by
  have h22 : (2 : ℕ) ^ 22 = 4194304 := by norm_num
  rw [h22] at h
  show roundHalfEven
      (fround30 (fround30 (fround30 ((x - ((CHUNK_SIZE : ℕ) : ℤ) / 2) * 2 ^ 30) + 2 ^ 29) /
        ((CHUNK_SIZE : ℕ) : ℤ))) 30 = x / 32
  have hcs : ((CHUNK_SIZE : ℕ) : ℤ) = 32 := by norm_num [CHUNK_SIZE]
  have hdiv2 : (32 : ℤ) / 2 = 16 := by norm_num
  rw [hcs, hdiv2]
  have hpow30 : ((2 : ℤ) ^ 30).natAbs = 1073741824 := by norm_num
  have hpow29 : ((2 : ℤ) ^ 29).natAbs = 536870912 := by norm_num
  have hpow24 : ((2 : ℤ) ^ 24).natAbs = 16777216 := by norm_num
  have ha : fround30 ((x - 16) * 2 ^ 30) = (x - 16) * 2 ^ 30 := by
    refine fround30_eq_self _ 30 (dvd_mul_left _ _) ?_ (by norm_num)
    rw [Int.natAbs_mul, hpow30]
    have hxa : (x - 16).natAbs ≤ 4194320 := by omega
    have hp : (2 : ℕ) ^ (30 + 24) = 18014398509481984 := by norm_num
    rw [hp]
    omega
  rw [ha]
  have hb1 : (x - 16) * 2 ^ 30 + 2 ^ 29 = (2 * x - 31) * (2 : ℤ) ^ 29 := by ring
  rw [hb1]
  have hb : fround30 ((2 * x - 31) * 2 ^ 29) = (2 * x - 31) * 2 ^ 29 := by
    refine fround30_eq_self _ 29 (dvd_mul_left _ _) ?_ (by norm_num)
    rw [Int.natAbs_mul, hpow29]
    have hxa : (2 * x - 31).natAbs ≤ 8388639 := by omega
    have hp : (2 : ℕ) ^ (29 + 24) = 9007199254740992 := by norm_num
    rw [hp]
    omega
  rw [hb]
  have hc1 : (2 * x - 31) * (2 : ℤ) ^ 29 / 32 = (2 * x - 31) * 2 ^ 24 := by
    have hsplit : (2 * x - 31) * (2 : ℤ) ^ 29 = ((2 * x - 31) * 2 ^ 24) * 32 := by ring
    rw [hsplit, Int.mul_ediv_cancel _ (by norm_num)]
  rw [hc1]
  have hd : fround30 ((2 * x - 31) * 2 ^ 24) = (2 * x - 31) * 2 ^ 24 := by
    refine fround30_eq_self _ 24 (dvd_mul_left _ _) ?_ (by norm_num)
    rw [Int.natAbs_mul, hpow24]
    have hxa : (2 * x - 31).natAbs ≤ 8388639 := by omega
    have hp : (2 : ℕ) ^ (24 + 24) = 281474976710656 := by norm_num
    rw [hp]
    omega
  rw [hd, roundHalfEven_chunk]

/-- The voxel component is the floored (euclidean) remainder by 32 and lies
in `[0, 32)`, for every integer input. -/
theorem voxelComponent_spec (x : ℤ) :
    ((WorldPos.voxelComponent x : ℕ) : ℤ) = x % 32 ∧ WorldPos.voxelComponent x < 32 := by
  have h1 := Int.tdiv_add_tmod x 32
  have hb : -32 < x.tmod 32 ∧ x.tmod 32 < 32 := by
    rcases le_or_lt 0 x with hx | hx
    · have hn := Int.tmod_nonneg 32 hx
      have hlt := Int.tmod_lt_of_pos x (show (0 : ℤ) < 32 by norm_num)
      omega
    · have h2 := Int.tdiv_add_tmod (-x) 32
      have h3 : (-x).tdiv 32 = -(x.tdiv 32) := Int.neg_tdiv x 32
      have h4 : 0 ≤ (-x).tmod 32 := Int.tmod_nonneg 32 (by omega)
      have h5 := Int.tmod_lt_of_pos (-x) (show (0 : ℤ) < 32 by norm_num)
      omega
  have he : (x.tmod 32 + 32).tmod 32 = (x.tmod 32 + 32) % 32 :=
    Int.tmod_eq_emod (by omega) (by norm_num)
  have hgoal : WorldPos.voxelComponent x = ((x.tmod 32 + 32) % 32).toNat := by
    rw [WorldPos.voxelComponent]
    have hcs : ((CHUNK_SIZE : ℕ) : ℤ) = 32 := by norm_num [CHUNK_SIZE]
    rw [hcs, he]
  rw [hgoal]
  constructor
  · rw [Int.toNat_of_nonneg (Int.emod_nonneg _ (by norm_num))]
    omega
  · omega

end FloatLemmas

/-- C1: the claimed round-trip `Vertex::from_u32(Vertex::to_u32(v)) == v`
fails on the code. At the in-bounds vertex pos=(1,2,3), ao=0, normal=0,
voxel type Block (every field within its bit-field bounds), decoding the
encoded word returns pos=(1,3,2): `to_u32` writes y at bits 6-11 and z at
bits 12-17, while `from_u32` reads y from bits 12-17 and z from bits 6-11,
so the two position fields come back exchanged. -/
theorem vertex_roundtrip_swaps_y_z :
    Vertex.from_u32 (Vertex.to_u32 ⟨⟨1, 2, 3⟩, 0, 0, .block⟩) =
        some ⟨⟨1, 3, 2⟩, 0, 0, .block⟩ ∧
      Vertex.from_u32 (Vertex.to_u32 ⟨⟨1, 2, 3⟩, 0, 0, .block⟩) ≠
        some ⟨⟨1, 2, 3⟩, 0, 0, .block⟩ := by decide

/-- C2: `ChunksFromMiddle::try_new` never returns `None` on a missing
neighbour — it panics on the `unwrap` of the store lookup. On the empty
store (every neighbourhood chunk absent) it panics rather than returning
`None`; on a store holding all 27 neighbourhood chunks of the origin it
returns `Some` of the gathered chunks. -/
theorem try_new_panics_on_absent_chunk :
    ChunksFromMiddle.try_new [] ⟨0, 0, 0⟩ = .panicked ∧
      ChunksFromMiddle.try_new [] ⟨0, 0, 0⟩ ≠ .returned none ∧
      ChunksFromMiddle.try_new
        (ADJACENT_CHUNK_DIRECTIONS.map (fun d => (d, ([] : Chunk)))) ⟨0, 0, 0⟩ =
        .returned (some ⟨List.replicate 27 ([] : Chunk)⟩) := by decide

/-- C6 counterexample: `get_voxel` does not handle the homogeneous
single-voxel chunk. On a neighbourhood of 27 singleton chunks, the offset
(1,0,0) selects the middle chunk (index 13) and in-chunk coordinate (1,0,0),
whose row-major index 1 is out of range for the singleton — the claimed
"always returns its single voxel" would give `some` of that voxel, but the
code indexes out of range (a panic, `none`); the single voxel is only
reachable at index 0. -/
theorem get_voxel_singleton_out_of_range :
    (⟨List.replicate 27 [⟨VoxelType.block⟩]⟩ : ChunksFromMiddle).get_voxel (1, 0, 0) = none ∧
      Chunk.get ([⟨VoxelType.block⟩] : Chunk) 0 = some ⟨VoxelType.block⟩ := by decide

/-- C6 (amended): for signed offsets with components in
`[-CHUNK_SIZE, 2*CHUNK_SIZE)`, `get_voxel` normalizes (bias by one chunk
width, then floored division and floored modulus by `CHUNK_SIZE`) into the
correct one of the 27 neighbourhood chunks plus an in-chunk coordinate and
positionally indexes that chunk at the row-major in-chunk index: no
homogeneous single-voxel handling is applied (on a length-1 chunk every
nonzero in-chunk coordinate indexes out of range; callers such as the inner
loop of `build_chunk_mesh` do the length check themselves). -/
theorem get_voxel_normalizes (cfm : ChunksFromMiddle) (p : ℤ × ℤ × ℤ)
    (hx1 : -32 ≤ p.1) (hx2 : p.1 < 64) (hy1 : -32 ≤ p.2.1) (hy2 : p.2.1 < 64)
    (hz1 : -32 ≤ p.2.2) (hz2 : p.2.2 < 64) :
    cfm.get_voxel p =
      (List.get? cfm.chunks
          ((1 + p.1 / 32) + (1 + p.2.1 / 32) * 3 + (1 + p.2.2 / 32) * 9).toNat).bind
        (fun chunk => Chunk.get_voxel_pos chunk
          ⟨(p.1 % 32).toNat, (p.2.1 % 32).toNat, (p.2.2 % 32).toNat⟩) := by
  obtain ⟨a, b, c⟩ := p
  dsimp only at hx1 hx2 hy1 hy2 hz1 hz2
  dsimp only [ChunksFromMiddle.get_voxel, VoxelPos.from_ivec3, VoxelPos.divScalar,
    VoxelPos.modScalar, VoxelPos.to_i32, chunk_pos_to_index_bounds, CHUNK_SIZE,
    CHUNKS_FROM_MIDDLE_SIZE]
  congr 1
  · exact congrArg (List.get? cfm.chunks) (by omega)
  · funext chunk
    congr 1
    rw [VoxelPos.mk.injEq]
    refine ⟨?_, ?_, ?_⟩ <;> omega

/-- C6 witness: the amended normalization theorem applied at the offset
(-1, 0, 5) over a singleton-chunk neighbourhood. -/
theorem get_voxel_normalizes_witness :
    ((-32 : ℤ) ≤ -1 ∧ (-1 : ℤ) < 64 ∧ (-32 : ℤ) ≤ 0 ∧ (0 : ℤ) < 64 ∧
        (-32 : ℤ) ≤ 5 ∧ (5 : ℤ) < 64) ∧
      (⟨List.replicate 27 [⟨VoxelType.block⟩]⟩ : ChunksFromMiddle).get_voxel (-1, 0, 5) =
        (List.get? (List.replicate 27 ([⟨VoxelType.block⟩] : Chunk))
            ((1 + (-1 : ℤ) / 32) + (1 + (0 : ℤ) / 32) * 3 + (1 + (5 : ℤ) / 32) * 9).toNat).bind
          (fun chunk => Chunk.get_voxel_pos chunk
            ⟨((-1 : ℤ) % 32).toNat, ((0 : ℤ) % 32).toNat, ((5 : ℤ) % 32).toNat⟩) :=
  ⟨⟨by decide, by decide, by decide, by decide, by decide, by decide⟩,
    get_voxel_normalizes ⟨List.replicate 27 [⟨VoxelType.block⟩]⟩ (-1, 0, 5)
      (by decide) (by decide) (by decide) (by decide) (by decide) (by decide)⟩

section LoadMeshLemmas

/-- The `load_mesh` drain loop never touches the voxel store. -/
theorem load_mesh_fold_chunks (l : List ChunkPos) :
    ∀ (w : World) (r : List ChunkPos), (l.foldl ChunkLoader.load_mesh_step (w, r)).1.chunks =
      w.chunks := by
  induction l with
  | nil => intro w r; rfl
  | cons a l ih =>
    intro w r
    rw [List.foldl_cons, ChunkLoader.load_mesh_step]
    split
    · exact ih w (r ++ [a])
    · exact ih _ r

/-- Every coordinate of the global mesh queue after the drain loop was
already there or passed the full neighbourhood-residency check. -/
theorem load_mesh_fold_queue (l : List ChunkPos) :
    ∀ (w : World) (r : List ChunkPos) (c : ChunkPos),
      c ∈ (l.foldl ChunkLoader.load_mesh_step (w, r)).1.load_mesh_queue →
      c ∈ w.load_mesh_queue ∨ ChunkLoader.all_neighbours_resident w.chunks c := by
  induction l with
  | nil => intro w r c h; exact Or.inl h
  | cons a l ih =>
    intro w r c h
    rw [List.foldl_cons, ChunkLoader.load_mesh_step] at h
    by_cases hb : a ∈ w.load_mesh_queue ∨ ¬ ChunkLoader.all_neighbours_resident w.chunks a
    · rw [if_pos hb] at h
      exact ih w (r ++ [a]) c h
    · rw [if_neg hb] at h
      push_neg at hb
      rcases ih _ r c h with h1 | h1
      · rcases List.mem_append.mp h1 with h2 | h2
        · exact Or.inl h2
        · rw [List.mem_singleton] at h2
          subst h2
          exact Or.inr hb.2
      · exact Or.inr h1

/-- Retry-list entries survive the rest of the drain loop. -/
theorem load_mesh_fold_retry_mono (l : List ChunkPos) :
    ∀ (w : World) (r : List ChunkPos) (c : ChunkPos),
      c ∈ r → c ∈ (l.foldl ChunkLoader.load_mesh_step (w, r)).2 := by
  induction l with
  | nil => intro w r c h; exact h
  | cons a l ih =>
    intro w r c h
    rw [List.foldl_cons, ChunkLoader.load_mesh_step]
    split
    · exact ih w (r ++ [a]) c (List.mem_append.mpr (Or.inl h))
    · exact ih _ r c h

/-- A drained coordinate whose neighbourhood is incomplete ends up on the
retry list. -/
theorem load_mesh_fold_retries (l : List ChunkPos) :
    ∀ (w : World) (r : List ChunkPos) (c : ChunkPos),
      c ∈ l → ¬ ChunkLoader.all_neighbours_resident w.chunks c →
      c ∈ (l.foldl ChunkLoader.load_mesh_step (w, r)).2 := by
  induction l with
  | nil => intro w r c h; exact absurd h (List.not_mem_nil c)
  | cons a l ih =>
    intro w r c hc hnall
    rw [List.foldl_cons, ChunkLoader.load_mesh_step]
    rcases List.mem_cons.mp hc with hca | hcl
    · subst hca
      rw [if_pos (Or.inr hnall)]
      exact load_mesh_fold_retry_mono l w (r ++ [c]) c
        (List.mem_append.mpr (Or.inr (List.mem_singleton.mpr rfl)))
    · split
      · exact ih w (r ++ [a]) c hcl hnall
      · exact ih _ r c hcl hnall

end LoadMeshLemmas

/-- C8: `load_mesh` admits a coordinate to the global mesh-load queue only
when all 27 chunks of its 3×3×3 neighbourhood (the `ADJACENT_CHUNK_DIRECTIONS`
offsets: 27 distinct offsets with components in `{-1,0,1}`, including the
zero offset, i.e. the coordinate itself) are resident in the voxel store;
a drained coordinate failing that check is pushed to the retry list, which
is appended back onto the loader's mesh-load queue, not dropped. -/
theorem load_mesh_admission_and_retry (loader : ChunkLoader) (world : World) :
    (ADJACENT_CHUNK_DIRECTIONS.length = 27 ∧ ADJACENT_CHUNK_DIRECTIONS.Nodup ∧
        ⟨0, 0, 0⟩ ∈ ADJACENT_CHUNK_DIRECTIONS ∧
        ∀ d ∈ ADJACENT_CHUNK_DIRECTIONS,
          d.x.natAbs ≤ 1 ∧ d.y.natAbs ≤ 1 ∧ d.z.natAbs ≤ 1) ∧
      (∀ c, c ∈ (ChunkLoader.load_mesh loader world).2.load_mesh_queue →
        c ∈ world.load_mesh_queue ∨ ChunkLoader.all_neighbours_resident world.chunks c) ∧
      (∀ c,
        c ∈ loader.mesh_load_queue.take (min MAX_CHUNK_LOADS loader.mesh_load_queue.length) →
        ¬ ChunkLoader.all_neighbours_resident world.chunks c →
        c ∈ (ChunkLoader.load_mesh loader world).1.mesh_load_queue) := by
  refine ⟨by decide, ?_, ?_⟩
  · intro c h
    exact load_mesh_fold_queue _ world [] c h
  · intro c hc hnall
    exact List.mem_append.mpr (Or.inr (load_mesh_fold_retries _ world [] c hc hnall))

/-- C8 witness: over a store holding exactly the neighbourhood of the
origin, draining the queue [origin, (5,5,5)] retries (5,5,5) (incomplete
neighbourhood) back onto the loader's queue. -/
theorem load_mesh_admission_and_retry_witness :
    ((⟨5, 5, 5⟩ : ChunkPos) ∈
        ([⟨0, 0, 0⟩, ⟨5, 5, 5⟩] : List ChunkPos).take
          (min MAX_CHUNK_LOADS ([⟨0, 0, 0⟩, ⟨5, 5, 5⟩] : List ChunkPos).length) ∧
      ¬ ChunkLoader.all_neighbours_resident
        (ADJACENT_CHUNK_DIRECTIONS.map (fun d => (d, ([] : Chunk)))) ⟨5, 5, 5⟩) ∧
      (⟨5, 5, 5⟩ : ChunkPos) ∈
        (ChunkLoader.load_mesh
          ⟨⟨9, 9, 9⟩, [], [⟨0, 0, 0⟩, ⟨5, 5, 5⟩], [], [], [], []⟩
          ⟨ADJACENT_CHUNK_DIRECTIONS.map (fun d => (d, ([] : Chunk))),
            [], [], [], [], [], [], (fun _ => none), 0⟩).1.mesh_load_queue :=
  ⟨⟨by decide, by decide⟩,
    (load_mesh_admission_and_retry
      ⟨⟨9, 9, 9⟩, [], [⟨0, 0, 0⟩, ⟨5, 5, 5⟩], [], [], [], []⟩
      ⟨ADJACENT_CHUNK_DIRECTIONS.map (fun d => (d, ([] : Chunk))),
        [], [], [], [], [], [], (fun _ => none), 0⟩).2.2 ⟨5, 5, 5⟩ (by decide) (by decide)⟩

section LoadChunksLemmas

/-- The `load_chunks` drain loop modifies neither the store nor the task
map. -/
theorem load_chunks_fold_frame (l : List ChunkPos) :
    ∀ (w : World), (l.foldl ChunkLoader.load_chunks_step w).chunks = w.chunks ∧
      (l.foldl ChunkLoader.load_chunks_step w).data_tasks = w.data_tasks := by
  induction l with
  | nil => intro w; exact ⟨rfl, rfl⟩
  | cons a l ih =>
    intro w
    rw [List.foldl_cons, ChunkLoader.load_chunks_step]
    split
    · exact ih w
    · exact ih _

/-- Every coordinate of the global data queue after the drain loop was
already there, or was neither resident nor queued nor in flight when it was
admitted. -/
theorem load_chunks_fold_admitted (l : List ChunkPos) :
    ∀ (w : World) (c : ChunkPos),
      c ∈ (l.foldl ChunkLoader.load_chunks_step w).load_data_queue →
      c ∈ w.load_data_queue ∨
        (w.chunks.contains_key c = false ∧ c ∉ w.data_tasks) := by
  induction l with
  | nil => intro w c h; exact Or.inl h
  | cons a l ih =>
    intro w c h
    rw [List.foldl_cons, ChunkLoader.load_chunks_step] at h
    by_cases hb : w.chunks.contains_key a = true ∨ a ∈ w.load_data_queue ∨ a ∈ w.data_tasks
    · rw [if_pos hb] at h
      exact ih w c h
    · rw [if_neg hb] at h
      push_neg at hb
      obtain ⟨hb1, hb2, hb3⟩ := hb
      rcases ih _ c h with h1 | h1
      · rcases List.mem_append.mp h1 with h2 | h2
        · exact Or.inl h2
        · rw [List.mem_singleton] at h2
          subst h2
          refine Or.inr ⟨?_, hb3⟩
          cases hcb : ChunkStore.contains_key w.chunks c with
          | false => rfl
          | true => exact absurd hcb hb1
      · exact Or.inr h1

/-- The drain loop preserves distinctness of the global data queue. -/
theorem load_chunks_fold_nodup (l : List ChunkPos) :
    ∀ (w : World), w.load_data_queue.Nodup →
      (l.foldl ChunkLoader.load_chunks_step w).load_data_queue.Nodup := by
  induction l with
  | nil => intro w h; exact h
  | cons a l ih =>
    intro w h
    rw [List.foldl_cons, ChunkLoader.load_chunks_step]
    by_cases hb : w.chunks.contains_key a = true ∨ a ∈ w.load_data_queue ∨ a ∈ w.data_tasks
    · rw [if_pos hb]
      exact ih w h
    · rw [if_neg hb]
      push_neg at hb
      refine ih _ (List.Nodup.append h (List.nodup_singleton a) ?_)
      intro x hx hxa
      rw [List.mem_singleton] at hxa
      subst hxa
      exact hb.2.1 hx

end LoadChunksLemmas

/-- C3 counterexample: the mesh layer can hold two in-flight jobs for one
coordinate. Starting from a world whose in-flight mesh task `Vec` already
holds a pending job for the origin, whose neighbourhood is fully resident,
and a loader whose mesh-load queue re-requests the origin (as happens when
an observer leaves and re-enters its radius while the job is still
running), `load_mesh` admits the origin again — its busy check consults
only the global queue and the neighbourhood, not `mesh_tasks` — and
`start_mesh_tasks` then pushes a second task entry for the origin. -/
theorem mesh_tasks_duplicate_coordinate :
    (World.start_mesh_tasks
        (ChunkLoader.load_mesh
          ⟨⟨9, 9, 9⟩, [], [⟨0, 0, 0⟩], [], [], [], []⟩
          ⟨ADJACENT_CHUNK_DIRECTIONS.map (fun d => (d, ([] : Chunk))),
            [], [], [], [], [], [(⟨0, 0, 0⟩, some .pending)], (fun _ => none), 0⟩).2
        ⟨0, 0, 0⟩).map
      (fun w => (w.mesh_tasks.filter
        (fun t => decide (t.1 = (⟨0, 0, 0⟩ : ChunkPos)))).length) = some 2 := by decide

/-- C3 (amended): the data layer never admits a duplicate: a coordinate
entering the global data-load queue through `load_chunks` was not resident,
not already in that queue and not in flight, and the queue stays duplicate
free; the store and the in-flight data-task map are untouched by the drain.
(The mesh layer has no such guarantee: its busy check omits the in-flight
mesh task list, see the counterexample.) -/
theorem load_chunks_no_duplicate_admission (loader : ChunkLoader) (world : World) :
    (∀ c, c ∈ (ChunkLoader.load_chunks loader world).2.load_data_queue →
        c ∈ world.load_data_queue ∨
          (world.chunks.contains_key c = false ∧ c ∉ world.data_tasks)) ∧
      (world.load_data_queue.Nodup →
        (ChunkLoader.load_chunks loader world).2.load_data_queue.Nodup) := by
  constructor
  · intro c h
    rw [ChunkLoader.load_chunks] at h
    split at h
    · exact Or.inl h
    · exact load_chunks_fold_admitted _ world c h
  · intro h
    rw [ChunkLoader.load_chunks]
    split
    · exact h
    · exact load_chunks_fold_nodup _ world h

/-- C3 witness: with the origin resident and (2,0,0) in flight, draining
[(2,0,0), (5,5,5)] admits only (5,5,5), which was neither resident, queued
nor in flight; the queue stays duplicate free. -/
theorem load_chunks_no_duplicate_admission_witness :
    ((⟨5, 5, 5⟩ : ChunkPos) ∈
        (ChunkLoader.load_chunks
          ⟨⟨9, 9, 9⟩, [⟨2, 0, 0⟩, ⟨5, 5, 5⟩], [], [], [], [], []⟩
          ⟨[(⟨0, 0, 0⟩, ([] : Chunk))], [], [], [], [], [⟨2, 0, 0⟩], [],
            (fun _ => none), 0⟩).2.load_data_queue ∧
        ([] : List ChunkPos).Nodup) ∧
      (((⟨5, 5, 5⟩ : ChunkPos) ∈ ([] : List ChunkPos) ∨
          (ChunkStore.contains_key [(⟨0, 0, 0⟩, ([] : Chunk))] ⟨5, 5, 5⟩ = false ∧
            (⟨5, 5, 5⟩ : ChunkPos) ∉ ([⟨2, 0, 0⟩] : List ChunkPos))) ∧
        (ChunkLoader.load_chunks
          ⟨⟨9, 9, 9⟩, [⟨2, 0, 0⟩, ⟨5, 5, 5⟩], [], [], [], [], []⟩
          ⟨[(⟨0, 0, 0⟩, ([] : Chunk))], [], [], [], [], [⟨2, 0, 0⟩], [],
            (fun _ => none), 0⟩).2.load_data_queue.Nodup) :=
  ⟨⟨by decide, by decide⟩,
    (load_chunks_no_duplicate_admission
        ⟨⟨9, 9, 9⟩, [⟨2, 0, 0⟩, ⟨5, 5, 5⟩], [], [], [], [], []⟩
        ⟨[(⟨0, 0, 0⟩, ([] : Chunk))], [], [], [], [], [⟨2, 0, 0⟩], [],
          (fun _ => none), 0⟩).1 ⟨5, 5, 5⟩ (by decide),
    (load_chunks_no_duplicate_admission
        ⟨⟨9, 9, 9⟩, [⟨2, 0, 0⟩, ⟨5, 5, 5⟩], [], [], [], [], []⟩
        ⟨[(⟨0, 0, 0⟩, ([] : Chunk))], [], [], [], [], [⟨2, 0, 0⟩], [],
          (fun _ => none), 0⟩).2 (by decide)⟩

section JoinMeshLemmas

/-- If no listed task finished with a mesh for coordinate `c`, the poll loop
leaves the entity recorded for `c` unchanged. -/
theorem join_mesh_fold_keep (l : List (ChunkPos × Option TaskPoll)) :
    ∀ (kept : List (ChunkPos × Option TaskPoll)) (ents : ChunkPos → Option ℕ) (n : ℕ)
      (c : ChunkPos), (∀ t ∈ l, t.1 = c → is_nonempty_result t.2 = false) →
      (l.foldl World.join_mesh_step (kept, ents, n)).2.1 c = ents c := by
  induction l with
  | nil => intro kept ents n c _; rfl
  | cons t l ih =>
    intro kept ents n c h
    rw [List.foldl_cons]
    have htail : ∀ t' ∈ l, t'.1 = c → is_nonempty_result t'.2 = false :=
      fun t' ht' => h t' (List.mem_cons_of_mem t ht')
    obtain ⟨c', s⟩ := t
    match s with
    | none => exact ih kept ents n c htail
    | some .pending => exact ih _ ents n c htail
    | some (.ready none) => exact ih kept ents n c htail
    | some (.ready (some m)) =>
      have hne : c' ≠ c := by
        intro hcc
        have := h (c', some (.ready (some m))) (List.mem_cons_self _ _) hcc
        simp [is_nonempty_result] at this
      rw [show World.join_mesh_step (kept, ents, n) (c', some (.ready (some m))) =
          (kept, insertEntity ents c' n, n + 1) from rfl]
      rw [ih kept _ (n + 1) c htail]
      rw [insertEntity]
      simp [Ne.symm hne]

/-- If some listed task finished with a mesh for coordinate `c`, the poll
loop records a freshly spawned entity for `c` (an id at least the initial
counter value); the freshness bound is preserved from any starting state
that already satisfies it. -/
theorem join_mesh_fold_fresh (l : List (ChunkPos × Option TaskPoll)) :
    ∀ (kept : List (ChunkPos × Option TaskPoll)) (ents : ChunkPos → Option ℕ) (n n0 : ℕ)
      (c : ChunkPos), n0 ≤ n →
      ((∃ t ∈ l, t.1 = c ∧ is_nonempty_result t.2 = true) ∨
        (∃ e, ents c = some e ∧ n0 ≤ e)) →
      ∃ e, (l.foldl World.join_mesh_step (kept, ents, n)).2.1 c = some e ∧ n0 ≤ e := by
  induction l with
  | nil =>
    intro kept ents n n0 c _ hpre
    rcases hpre with ⟨t, ht, _⟩ | ⟨e, he, hn0⟩
    · exact absurd ht (List.not_mem_nil t)
    · exact ⟨e, he, hn0⟩
  | cons t l ih =>
    intro kept ents n n0 c hn hpre
    rw [List.foldl_cons]
    obtain ⟨c', s⟩ := t
    have hsplit : (∃ t' ∈ l, t'.1 = c ∧ is_nonempty_result t'.2 = true) ∨
        ((c', s).1 = c ∧ is_nonempty_result (c', s).2 = true) ∨
        (∃ e, ents c = some e ∧ n0 ≤ e) := by
      rcases hpre with ⟨t', ht', h1, h2⟩ | hr
      · rcases List.mem_cons.mp ht' with hh | hh
        · subst hh
          exact Or.inr (Or.inl ⟨h1, h2⟩)
        · exact Or.inl ⟨t', hh, h1, h2⟩
      · exact Or.inr (Or.inr hr)
    match s with
    | none =>
      rcases hsplit with hl | ⟨_, hbad⟩ | hr
      · exact ih kept ents n n0 c hn (Or.inl hl)
      · simp [is_nonempty_result] at hbad
      · exact ih kept ents n n0 c hn (Or.inr hr)
    | some .pending =>
      rcases hsplit with hl | ⟨_, hbad⟩ | hr
      · exact ih _ ents n n0 c hn (Or.inl hl)
      · simp [is_nonempty_result] at hbad
      · exact ih _ ents n n0 c hn (Or.inr hr)
    | some (.ready none) =>
      rcases hsplit with hl | ⟨_, hbad⟩ | hr
      · exact ih kept ents n n0 c hn (Or.inl hl)
      · simp [is_nonempty_result] at hbad
      · exact ih kept ents n n0 c hn (Or.inr hr)
    | some (.ready (some m)) =>
      rw [show World.join_mesh_step (kept, ents, n) (c', some (.ready (some m))) =
          (kept, insertEntity ents c' n, n + 1) from rfl]
      by_cases hcc : c = c'
      · subst hcc
        refine ih kept _ (n + 1) n0 c (by omega) (Or.inr ⟨n, ?_, hn⟩)
        rw [insertEntity]
        simp
      · rcases hsplit with hl | ⟨hbad, _⟩ | ⟨e, he, hn0⟩
        · exact ih kept _ (n + 1) n0 c (by omega) (Or.inl hl)
        · exact absurd hbad.symm hcc
        · refine ih kept _ (n + 1) n0 c (by omega) (Or.inr ⟨e, ?_, hn0⟩)
          rw [insertEntity]
          simp [hcc, he]

end JoinMeshLemmas

/-- C4 counterexample: a completed mesh job with an empty result does not
remove the existing rendering handle. With one task for the origin that
polls complete with no mesh, and a handle (entity 5) recorded for the
origin, `join_mesh` consumes the task (the task list empties) but leaves
the handle in place — the claim says the handle is removed. -/
theorem join_mesh_empty_result_leaves_handle :
    (World.join_mesh
          ⟨[], [], [], [], [], [], [(⟨0, 0, 0⟩, some (.ready none))],
            (fun x => if x = ⟨0, 0, 0⟩ then some 5 else none), 6⟩).chunk_entities
        ⟨0, 0, 0⟩ = some 5 ∧
      (World.join_mesh
          ⟨[], [], [], [], [], [], [(⟨0, 0, 0⟩, some (.ready none))],
            (fun x => if x = ⟨0, 0, 0⟩ then some 5 else none), 6⟩).mesh_tasks = [] := by
  constructor
  · rfl
  · rfl

/-- C4 (amended): in `join_mesh`, a coordinate none of whose polled tasks
produced a non-empty mesh keeps exactly the rendering handle it had (an
empty mesh result creates no handle and removes none — removal happens only
in `unload_mesh`); a coordinate with a completed non-empty mesh result gets
a freshly spawned handle recorded (replacing the previous one, which is
despawned). -/
theorem join_mesh_handle_update (w : World) (c : ChunkPos) :
    ((∀ t ∈ w.mesh_tasks, t.1 = c → is_nonempty_result t.2 = false) →
        (World.join_mesh w).chunk_entities c = w.chunk_entities c) ∧
      ((∃ t ∈ w.mesh_tasks, t.1 = c ∧ is_nonempty_result t.2 = true) →
        ∃ e, (World.join_mesh w).chunk_entities c = some e ∧ w.next_entity ≤ e) := by
  constructor
  · intro h
    exact join_mesh_fold_keep w.mesh_tasks [] w.chunk_entities w.next_entity c h
  · intro h
    exact join_mesh_fold_fresh w.mesh_tasks [] w.chunk_entities w.next_entity w.next_entity c
      le_rfl (Or.inl h)

/-- C4 witness: with an empty-result task for the origin (handle 5 recorded)
and a non-empty-result task for (1,0,0), the origin keeps handle 5 and
(1,0,0) gets a fresh handle (id at least 6). -/
theorem join_mesh_handle_update_witness :
    ((∀ t ∈ [((⟨0, 0, 0⟩ : ChunkPos), some (TaskPoll.ready none)),
          ((⟨1, 0, 0⟩ : ChunkPos), some (TaskPoll.ready (some 3)))],
        t.1 = (⟨0, 0, 0⟩ : ChunkPos) → is_nonempty_result t.2 = false) ∧
        (∃ t ∈ [((⟨0, 0, 0⟩ : ChunkPos), some (TaskPoll.ready none)),
            ((⟨1, 0, 0⟩ : ChunkPos), some (TaskPoll.ready (some 3)))],
          t.1 = (⟨1, 0, 0⟩ : ChunkPos) ∧ is_nonempty_result t.2 = true)) ∧
      ((World.join_mesh
            ⟨[], [], [], [], [], [],
              [(⟨0, 0, 0⟩, some (.ready none)), (⟨1, 0, 0⟩, some (.ready (some 3)))],
              (fun x => if x = ⟨0, 0, 0⟩ then some 5 else none), 6⟩).chunk_entities
          ⟨0, 0, 0⟩ =
          (fun x => if x = (⟨0, 0, 0⟩ : ChunkPos) then some 5 else none) ⟨0, 0, 0⟩ ∧
        ∃ e, (World.join_mesh
            ⟨[], [], [], [], [], [],
              [(⟨0, 0, 0⟩, some (.ready none)), (⟨1, 0, 0⟩, some (.ready (some 3)))],
              (fun x => if x = ⟨0, 0, 0⟩ then some 5 else none), 6⟩).chunk_entities
          ⟨1, 0, 0⟩ = some e ∧ 6 ≤ e) :=
  ⟨⟨by decide, by decide⟩,
    (join_mesh_handle_update
        ⟨[], [], [], [], [], [],
          [(⟨0, 0, 0⟩, some (.ready none)), (⟨1, 0, 0⟩, some (.ready (some 3)))],
          (fun x => if x = ⟨0, 0, 0⟩ then some 5 else none), 6⟩ ⟨0, 0, 0⟩).1 (by decide),
    (join_mesh_handle_update
        ⟨[], [], [], [], [], [],
          [(⟨0, 0, 0⟩, some (.ready none)), (⟨1, 0, 0⟩, some (.ready (some 3)))],
          (fun x => if x = ⟨0, 0, 0⟩ then some 5 else none), 6⟩ ⟨1, 0, 0⟩).2 (by decide)⟩

section DetectMoveLemmas

/-- The queue algebra of one `detect_move` layer: `unload` is the old queue
extended by old-minus-new, `load` is the new queue extended by new-minus-old,
purged of everything in `unload` and re-sorted. Disjointness always holds;
starting from empty queues the result is exactly the two halves of the
symmetric difference, duplicate free. -/
theorem queue_pair_spec (base_load base_unload newD oldD : List ChunkPos) (o : ChunkPos)
    (hnewD : newD.Nodup) (holdD : oldD.Nodup) (unload load : List ChunkPos)
    (hu : unload = base_unload ++ oldD.filter (fun c => decide (c ∉ newD)))
    (hl : load = List.insertionSort (distLe o)
      ((base_load ++ newD.filter (fun c => decide (c ∉ oldD))).filter
        (fun c => decide (c ∉ unload)))) :
    (∀ c, ¬(c ∈ load ∧ c ∈ unload)) ∧
      (base_load = [] → base_unload = [] →
        (∀ c, c ∈ load ↔ (c ∈ newD ∧ c ∉ oldD)) ∧
          (∀ c, c ∈ unload ↔ (c ∈ oldD ∧ c ∉ newD)) ∧
          load.Nodup ∧ unload.Nodup) := by
  subst hu hl
  have hmemload : ∀ c, c ∈ List.insertionSort (distLe o)
      ((base_load ++ newD.filter (fun c => decide (c ∉ oldD))).filter
        (fun c => decide (c ∉ (base_unload ++ oldD.filter (fun c => decide (c ∉ newD)))))) ↔
      ((c ∈ base_load ∨ (c ∈ newD ∧ c ∉ oldD)) ∧
        ¬(c ∈ base_unload ∨ (c ∈ oldD ∧ c ∉ newD))) := by
    intro c
    rw [(List.perm_insertionSort _ _).mem_iff, List.mem_filter]
    simp only [List.mem_append, List.mem_filter, decide_eq_true_eq]
  constructor
  · intro c ⟨hc1, hc2⟩
    rw [hmemload] at hc1
    rcases List.mem_append.mp hc2 with h2 | h2
    · exact hc1.2 (Or.inl h2)
    · rw [List.mem_filter] at h2
      exact hc1.2 (Or.inr ⟨h2.1, by simpa using h2.2⟩)
  · intro hbl hbu
    subst hbl hbu
    refine ⟨?_, ?_, ?_, ?_⟩
    · intro c
      rw [hmemload]
      simp only [List.not_mem_nil, false_or]
      constructor
      · rintro ⟨⟨h1, h2⟩, _⟩
        exact ⟨h1, h2⟩
      · rintro ⟨h1, h2⟩
        exact ⟨⟨h1, h2⟩, fun h => h2 h.1⟩
    · intro c
      simp [List.mem_filter]
    · rw [(List.perm_insertionSort _ _).nodup_iff, List.nil_append]
      exact (hnewD.filter _).filter _
    · simpa using holdD.filter _

end DetectMoveLemmas

/-- C7 counterexample: the "newly queued loads = new minus old" half of the
claim fails when the loader's unload queue still holds a stale entry.
Radius-0 offsets, previous position A = (0,0,0), a stale data-unload entry
for B = (1,0,0) (queued by an earlier move and not yet drained); moving to B
samples exactly B, so new-minus-old = (1,0,0), but the `retain` drops it
against the stale unload entry and the data-load queue ends empty. -/
theorem detect_move_stale_unload_drops_load :
    (ChunkLoader.detect_move
        ⟨⟨0, 0, 0⟩, [], [], [⟨1, 0, 0⟩], [], [⟨0, 0, 0⟩], [⟨0, 0, 0⟩]⟩
        ⟨1, 0, 0⟩
        ⟨[], [], [], [], [], [], [], (fun _ => none), 0⟩).1.data_load_queue = [] ∧
      (⟨1, 0, 0⟩ : ChunkPos) ∈
        ([⟨0, 0, 0⟩] : List ChunkPos).map (fun o => (⟨1, 0, 0⟩ : ChunkPos) + o) ∧
      (⟨1, 0, 0⟩ : ChunkPos) ∉
        ([⟨0, 0, 0⟩] : List ChunkPos).map (fun o => (⟨0, 0, 0⟩ : ChunkPos) + o) := by
  refine ⟨?_, by decide, by decide⟩
  rfl

/-- C7 (amended): after a `detect_move` that detects a movement, within each
layer no coordinate is in both the load and the unload queue (the `retain`
purges the load queue against the whole unload queue). When the loader's
queues of a layer were empty before the call (the steady state: the drain
systems empty them every frame), the newly queued coordinates are exactly
the two halves of the deduplicated symmetric difference of the sampled
sets: loads = new minus old, unloads = old minus new, each duplicate free.
(With stale queue entries the exactness half can fail — see the
counterexample — and a call without movement leaves all queues as they
were.) -/
theorem detect_move_queue_discipline (loader : ChunkLoader) (chunk_pos : ChunkPos)
    (world : World) (hmove : chunk_pos ≠ loader.prev_chunk_pos) :
    (∀ c, ¬(c ∈ (ChunkLoader.detect_move loader chunk_pos world).1.data_load_queue ∧
        c ∈ (ChunkLoader.detect_move loader chunk_pos world).1.data_unload_queue)) ∧
      (∀ c, ¬(c ∈ (ChunkLoader.detect_move loader chunk_pos world).1.mesh_load_queue ∧
        c ∈ (ChunkLoader.detect_move loader chunk_pos world).1.mesh_unload_queue)) ∧
      (loader.data_load_queue = [] → loader.data_unload_queue = [] →
        (∀ c, c ∈ (ChunkLoader.detect_move loader chunk_pos world).1.data_load_queue ↔
            (c ∈ loader.data_sampling_offsets.map (fun o => chunk_pos + o) ∧
              c ∉ loader.data_sampling_offsets.map (fun o => loader.prev_chunk_pos + o))) ∧
          (∀ c, c ∈ (ChunkLoader.detect_move loader chunk_pos world).1.data_unload_queue ↔
            (c ∈ loader.data_sampling_offsets.map (fun o => loader.prev_chunk_pos + o) ∧
              c ∉ loader.data_sampling_offsets.map (fun o => chunk_pos + o))) ∧
          (ChunkLoader.detect_move loader chunk_pos world).1.data_load_queue.Nodup ∧
          (ChunkLoader.detect_move loader chunk_pos world).1.data_unload_queue.Nodup) ∧
      (loader.mesh_load_queue = [] → loader.mesh_unload_queue = [] →
        (∀ c, c ∈ (ChunkLoader.detect_move loader chunk_pos world).1.mesh_load_queue ↔
            (c ∈ loader.mesh_sampling_offsets.map (fun o => chunk_pos + o) ∧
              c ∉ loader.mesh_sampling_offsets.map (fun o => loader.prev_chunk_pos + o))) ∧
          (∀ c, c ∈ (ChunkLoader.detect_move loader chunk_pos world).1.mesh_unload_queue ↔
            (c ∈ loader.mesh_sampling_offsets.map (fun o => loader.prev_chunk_pos + o) ∧
              c ∉ loader.mesh_sampling_offsets.map (fun o => chunk_pos + o))) ∧
          (ChunkLoader.detect_move loader chunk_pos world).1.mesh_load_queue.Nodup ∧
          (ChunkLoader.detect_move loader chunk_pos world).1.mesh_unload_queue.Nodup) := by
  have hdu : (ChunkLoader.detect_move loader chunk_pos world).1.data_unload_queue =
      loader.data_unload_queue ++
        ((loader.data_sampling_offsets.map (fun o => loader.prev_chunk_pos + o)).dedup.filter
          (fun c => decide
            (c ∉ (loader.data_sampling_offsets.map (fun o => chunk_pos + o)).dedup))) := by
    rw [ChunkLoader.detect_move, if_neg hmove]
  have hdl : (ChunkLoader.detect_move loader chunk_pos world).1.data_load_queue =
      List.insertionSort (distLe chunk_pos)
        ((loader.data_load_queue ++
          ((loader.data_sampling_offsets.map (fun o => chunk_pos + o)).dedup.filter
            (fun c => decide
              (c ∉ (loader.data_sampling_offsets.map
                (fun o => loader.prev_chunk_pos + o)).dedup)))).filter
          (fun c => decide (c ∉ (loader.data_unload_queue ++
            ((loader.data_sampling_offsets.map
              (fun o => loader.prev_chunk_pos + o)).dedup.filter
              (fun c => decide (c ∉ (loader.data_sampling_offsets.map
                (fun o => chunk_pos + o)).dedup))))))) := by
    rw [ChunkLoader.detect_move, if_neg hmove]
  have hmu : (ChunkLoader.detect_move loader chunk_pos world).1.mesh_unload_queue =
      loader.mesh_unload_queue ++
        ((loader.mesh_sampling_offsets.map (fun o => loader.prev_chunk_pos + o)).dedup.filter
          (fun c => decide
            (c ∉ (loader.mesh_sampling_offsets.map (fun o => chunk_pos + o)).dedup))) := by
    rw [ChunkLoader.detect_move, if_neg hmove]
  have hml : (ChunkLoader.detect_move loader chunk_pos world).1.mesh_load_queue =
      List.insertionSort (distLe chunk_pos)
        ((loader.mesh_load_queue ++
          ((loader.mesh_sampling_offsets.map (fun o => chunk_pos + o)).dedup.filter
            (fun c => decide
              (c ∉ (loader.mesh_sampling_offsets.map
                (fun o => loader.prev_chunk_pos + o)).dedup)))).filter
          (fun c => decide (c ∉ (loader.mesh_unload_queue ++
            ((loader.mesh_sampling_offsets.map
              (fun o => loader.prev_chunk_pos + o)).dedup.filter
              (fun c => decide (c ∉ (loader.mesh_sampling_offsets.map
                (fun o => chunk_pos + o)).dedup))))))) := by
    rw [ChunkLoader.detect_move, if_neg hmove]
  rw [hdl, hdu, hml, hmu]
  have hdata := queue_pair_spec loader.data_load_queue loader.data_unload_queue
    ((loader.data_sampling_offsets.map (fun o => chunk_pos + o)).dedup)
    ((loader.data_sampling_offsets.map (fun o => loader.prev_chunk_pos + o)).dedup)
    chunk_pos (List.nodup_dedup _) (List.nodup_dedup _) _ _ rfl rfl
  have hmesh := queue_pair_spec loader.mesh_load_queue loader.mesh_unload_queue
    ((loader.mesh_sampling_offsets.map (fun o => chunk_pos + o)).dedup)
    ((loader.mesh_sampling_offsets.map (fun o => loader.prev_chunk_pos + o)).dedup)
    chunk_pos (List.nodup_dedup _) (List.nodup_dedup _) _ _ rfl rfl
  refine ⟨hdata.1, hmesh.1, ?_, ?_⟩
  · intro h1 h2
    obtain ⟨ha, hb, hc, hd⟩ := hdata.2 h1 h2
    refine ⟨fun c => ?_, fun c => ?_, hc, hd⟩
    · rw [ha c]
      simp [List.mem_dedup]
    · rw [hb c]
      simp [List.mem_dedup]
  · intro h1 h2
    obtain ⟨ha, hb, hc, hd⟩ := hmesh.2 h1 h2
    refine ⟨fun c => ?_, fun c => ?_, hc, hd⟩
    · rw [ha c]
      simp [List.mem_dedup]
    · rw [hb c]
      simp [List.mem_dedup]

/-- C7 witness: radius-0 loader with clean queues moving from the origin to
(1,0,0): the new sample (1,0,0) is queued for load, the old sample (0,0,0)
for unload, disjointly. -/
theorem detect_move_queue_discipline_witness :
    ((⟨1, 0, 0⟩ : ChunkPos) ≠ (⟨0, 0, 0⟩ : ChunkPos) ∧
        ([] : List ChunkPos) = [] ∧ ([] : List ChunkPos) = []) ∧
      (∀ c, c ∈ (ChunkLoader.detect_move
          ⟨⟨0, 0, 0⟩, [], [], [], [], [⟨0, 0, 0⟩], [⟨0, 0, 0⟩]⟩ ⟨1, 0, 0⟩
          ⟨[], [], [], [], [], [], [], (fun _ => none), 0⟩).1.data_load_queue ↔
        (c ∈ ([⟨0, 0, 0⟩] : List ChunkPos).map (fun o => (⟨1, 0, 0⟩ : ChunkPos) + o) ∧
          c ∉ ([⟨0, 0, 0⟩] : List ChunkPos).map (fun o => (⟨0, 0, 0⟩ : ChunkPos) + o))) :=
  ⟨⟨by decide, rfl, rfl⟩,
    ((detect_move_queue_discipline
        ⟨⟨0, 0, 0⟩, [], [], [], [], [⟨0, 0, 0⟩], [⟨0, 0, 0⟩]⟩ ⟨1, 0, 0⟩
        ⟨[], [], [], [], [], [], [], (fun _ => none), 0⟩ (by decide)).2.2.1 rfl rfl).1⟩

section GreedyLemmas

/-- The fuelled trailing-zeros count never exceeds its fuel. -/
lemma tzAux_le : ∀ fuel v, tzAux fuel v ≤ fuel
  | 0, _ => Nat.le_refl 0
  | fuel + 1, v => by
    rw [tzAux]
    split_ifs
    · exact Nat.zero_le _
    · exact Nat.succ_le_succ (tzAux_le fuel (v / 2))

/-- All bits strictly below the trailing-zeros count are clear. -/
lemma tzAux_bits_false : ∀ fuel v i, i < tzAux fuel v → v.testBit i = false := by
  intro fuel
  induction fuel with
  | zero => intro v i hi; simp [tzAux] at hi
  | succ fuel ih =>
    intro v i hi
    rw [tzAux] at hi
    split_ifs at hi with hodd
    · omega
    · match i with
      | 0 => simp [Nat.testBit_zero, hodd]
      | i + 1 => rw [Nat.testBit_succ]; exact ih (v / 2) i (by omega)

/-- When the trailing-zeros count is below the fuel, the bit right at the
count is set. -/
lemma tzAux_bit_true : ∀ fuel v, tzAux fuel v < fuel → v.testBit (tzAux fuel v) = true := by
  intro fuel
  induction fuel with
  | zero => intro v h; omega
  | succ fuel ih =>
    intro v h
    rw [tzAux] at h ⊢
    split_ifs at h ⊢ with hodd
    · simp [Nat.testBit_zero, hodd]
    · rw [Nat.testBit_succ]; exact ih (v / 2) (by omega)

/-- The fuelled trailing-ones count never exceeds its fuel. -/
lemma toAux_le : ∀ fuel v, toAux fuel v ≤ fuel
  | 0, _ => Nat.le_refl 0
  | fuel + 1, v => by
    rw [toAux]
    split_ifs
    · exact Nat.succ_le_succ (toAux_le fuel (v / 2))
    · exact Nat.zero_le _

/-- All bits strictly below the trailing-ones count are set. -/
lemma toAux_bits_true : ∀ fuel v i, i < toAux fuel v → v.testBit i = true := by
  intro fuel
  induction fuel with
  | zero => intro v i hi; simp [toAux] at hi
  | succ fuel ih =>
    intro v i hi
    rw [toAux] at hi
    split_ifs at hi with hodd
    · match i with
      | 0 => simp [Nat.testBit_zero, hodd]
      | i + 1 => rw [Nat.testBit_succ]; exact ih (v / 2) i (by omega)
    · omega

/-- A value with its lowest bit set has a positive trailing-ones count. -/
lemma toAux_pos (fuel v : ℕ) (h : v.testBit 0 = true) : 1 ≤ toAux (fuel + 1) v := by
  rw [toAux]
  simp only [Nat.testBit_zero, decide_eq_true_eq] at h
  rw [if_pos h]
  omega

/-- Writing a plane cell and reading it back. -/
lemma planeUpdate_same (d : Plane) (i v : ℕ) : planeUpdate d i v i = v := by
  simp [planeUpdate]

/-- Writing a plane cell leaves the other cells alone. -/
lemma planeUpdate_other (d : Plane) (i v j : ℕ) (h : j ≠ i) : planeUpdate d i v j = d j := by
  simp [planeUpdate, h]

/-- The height mask of the mesher is `2 ^ height - 1` whenever the height fits
the word (the `checked_shl` overflow arm returns `!0 = 2 ^ 32 - 1`). -/
lemma height_as_mask_eq (h : ℕ) (hh : h ≤ 32) :
    (if 32 ≤ h then 2 ^ 32 - 1 else 2 ^ h - 1) = 2 ^ h - 1 := by
  split_ifs with h32
  · have : h = 32 := by omega
    rw [this]
  · rfl

/-- The shifted height mask does not wrap: its value is the plain product. -/
lemma mask_eq_of_le (h y1 : ℕ) (hle : y1 + h ≤ 32) :
    ((2 ^ h - 1) <<< y1) % 2 ^ 32 = (2 ^ h - 1) <<< y1 := by
  apply Nat.mod_eq_of_lt
  rw [Nat.shiftLeft_eq]
  calc (2 ^ h - 1) * 2 ^ y1 < 2 ^ h * 2 ^ y1 := by
        have h1 : 0 < 2 ^ h := Nat.pos_pow_of_pos h (by norm_num)
        have h2 : 0 < 2 ^ y1 := Nat.pos_pow_of_pos y1 (by norm_num)
        exact mul_lt_mul_of_pos_right (by omega) h2
    _ = 2 ^ (h + y1) := by rw [← pow_add]
    _ ≤ 2 ^ 32 := Nat.pow_le_pow_right (by norm_num) (by omega)

/-- Bits of the shifted height mask: exactly the band `[y1, y1 + h)`. -/
lemma mask_testBit (h y1 b : ℕ) (hle : y1 + h ≤ 32) :
    (((2 ^ h - 1) <<< y1) % 2 ^ 32).testBit b =
      (decide (y1 ≤ b) && decide (b < y1 + h)) := by
  rw [mask_eq_of_le h y1 hle, Nat.testBit_shiftLeft, Nat.testBit_two_pow_sub_one]
  simp only [ge_iff_le]
  by_cases hb : y1 ≤ b
  · have h2 : (decide (b - y1 < h)) = (decide (b < y1 + h)) := by
      by_cases hc : b - y1 < h
      · have hc2 : b < y1 + h := by omega
        simp [hc, hc2]
      · have hc2 : ¬b < y1 + h := by omega
        simp [hc, hc2]
    rw [h2]
  · simp [hb]

/-- The growth admission test of the mesher (`(w >>> y1) &&& hmask = hmask`
with `hmask = 2 ^ h - 1`) holds exactly when the whole band `[y1, y1 + h)` of
`w` is set. -/
lemma mask_check_iff (w h y1 : ℕ) :
    (w >>> y1) &&& (2 ^ h - 1) = 2 ^ h - 1 ↔
      ∀ b, y1 ≤ b → b < y1 + h → w.testBit b = true := by
  constructor
  · intro heq b hb1 hb2
    have := congrArg (fun x => x.testBit (b - y1)) heq
    simp only [Nat.testBit_and, Nat.testBit_shiftRight, Nat.testBit_two_pow_sub_one] at this
    have hlt : decide (b - y1 < h) = true := by simpa using (by omega : b - y1 < h)
    rw [hlt, Bool.and_true] at this
    have harg : y1 + (b - y1) = b := by omega
    rw [harg] at this
    exact this
  · intro hall
    apply Nat.eq_of_testBit_eq
    intro i
    simp only [Nat.testBit_and, Nat.testBit_shiftRight, Nat.testBit_two_pow_sub_one]
    by_cases hi : i < h
    · have := hall (y1 + i) (by omega) (by omega)
      simp [this, hi]
    · simp [hi]

/-- Clearing through the complemented mask drops exactly the mask's bits
(for 32-bit values). -/
lemma clear_testBit (w m b : ℕ) (hw : w < 2 ^ 32) :
    (w &&& u32_not m).testBit b = (w.testBit b && !m.testBit b) := by
  rw [u32_not, Nat.testBit_and, Nat.testBit_xor, Nat.testBit_two_pow_sub_one]
  by_cases hb : b < 32
  · simp [hb]
  · have hwb : w.testBit b = false := by
      apply Nat.testBit_lt_two_pow
      calc w < 2 ^ 32 := hw
        _ ≤ 2 ^ b := Nat.pow_le_pow_right (by norm_num) (by omega)
    simp [hb, hwb]

/-- Full behaviour of the horizontal-growth loop `growAux`: the absorbed span
stays within the 32 rows, rows outside the span keep their value, and every
absorbed row passed the band test and had the mask cleared. -/
lemma growAux_spec (y1 hmask mask : ℕ) :
    ∀ (fuel idx : ℕ) (d : Plane), idx ≤ 32 → 32 - idx ≤ fuel →
      idx + (growAux 32 y1 hmask mask fuel idx d).1 ≤ 32 ∧
      (∀ j, j < idx ∨ idx + (growAux 32 y1 hmask mask fuel idx d).1 ≤ j →
        (growAux 32 y1 hmask mask fuel idx d).2 j = d j) ∧
      (∀ j, idx ≤ j → j < idx + (growAux 32 y1 hmask mask fuel idx d).1 →
        (d j >>> y1) &&& hmask = hmask ∧
        (growAux 32 y1 hmask mask fuel idx d).2 j = d j &&& u32_not mask) := by
  intro fuel
  induction fuel with
  | zero =>
    intro idx d hidx _
    have hp1 : (growAux 32 y1 hmask mask 0 idx d).1 = 0 := rfl
    have hp2 : ∀ j, (growAux 32 y1 hmask mask 0 idx d).2 j = d j := fun _ => rfl
    rw [hp1]
    exact ⟨by omega, fun j _ => hp2 j, fun j ha hb => by omega⟩
  | succ fuel ih =>
    intro idx d hidx hfuel
    by_cases hlt : idx < 32
    · by_cases hmeq : (d idx >>> y1) &&& hmask = hmask
      · have heq : growAux 32 y1 hmask mask (fuel + 1) idx d =
            ((growAux 32 y1 hmask mask fuel (idx + 1)
               (planeUpdate d idx (d idx &&& u32_not mask))).1 + 1,
             (growAux 32 y1 hmask mask fuel (idx + 1)
               (planeUpdate d idx (d idx &&& u32_not mask))).2) := by
          simp only [growAux, if_pos hlt, if_pos hmeq]
        obtain ⟨A1, A2, A3⟩ := ih (idx + 1)
          (planeUpdate d idx (d idx &&& u32_not mask)) (by omega) (by omega)
        rw [heq]
        refine ⟨by omega, ?_, ?_⟩
        · intro j hj
          rcases hj with hj | hj
          · rw [A2 j (Or.inl (by omega)), planeUpdate_other _ _ _ _ (by omega)]
          · rw [A2 j (Or.inr (by omega)), planeUpdate_other _ _ _ _ (by omega)]
        · intro j hj1 hj2
          rcases Nat.eq_or_lt_of_le hj1 with hj | hj
          · rw [← hj]
            rw [A2 idx (Or.inl (by omega)), planeUpdate_same]
            exact ⟨hmeq, rfl⟩
          · obtain ⟨B1, B2⟩ := A3 j (by omega) (by omega)
            rw [planeUpdate_other _ _ _ _ (by omega)] at B1 B2
            exact ⟨B1, B2⟩
      · have heq : growAux 32 y1 hmask mask (fuel + 1) idx d = (0, d) := by
          simp only [growAux, if_pos hlt, if_neg hmeq]
        have hp1 : (growAux 32 y1 hmask mask (fuel + 1) idx d).1 = 0 := by rw [heq]
        have hp2 : ∀ j, (growAux 32 y1 hmask mask (fuel + 1) idx d).2 j = d j := by
          rw [heq]; intro j; rfl
        rw [hp1]
        exact ⟨by omega, fun j _ => hp2 j, fun j ha hb => by omega⟩
    · have heq : growAux 32 y1 hmask mask (fuel + 1) idx d = (0, d) := by
        simp only [growAux, if_neg hlt]
      have hp1 : (growAux 32 y1 hmask mask (fuel + 1) idx d).1 = 0 := by rw [heq]
      have hp2 : ∀ j, (growAux 32 y1 hmask mask (fuel + 1) idx d).2 j = d j := by
        rw [heq]; intro j; rfl
      rw [hp1]
      exact ⟨by omega, fun j _ => hp2 j, fun j ha hb => by omega⟩

/-- `u32::trailing_zeros` never exceeds the word width. -/
lemma trailing_zeros_le (v : ℕ) : u32_trailing_zeros v ≤ 32 := tzAux_le 32 v

/-- Bits below the trailing-zeros count are clear. -/
lemma trailing_zeros_bits (v i : ℕ) (h : i < u32_trailing_zeros v) :
    v.testBit i = false := tzAux_bits_false 32 v i h

/-- If the trailing-zeros count is below 32, the bit right at it is set. -/
lemma trailing_zeros_bit_true (v : ℕ) (h : u32_trailing_zeros v < 32) :
    v.testBit (u32_trailing_zeros v) = true := tzAux_bit_true 32 v h

/-- `u32::trailing_ones` never exceeds the word width. -/
lemma trailing_ones_le (v : ℕ) : u32_trailing_ones v ≤ 32 := toAux_le 32 v

/-- Bits below the trailing-ones count are set. -/
lemma trailing_ones_bits (v i : ℕ) (h : i < u32_trailing_ones v) :
    v.testBit i = true := toAux_bits_true 32 v i h

/-- A value with its lowest bit set has a positive trailing-ones count. -/
lemma trailing_ones_pos (v : ℕ) (h : v.testBit 0 = true) :
    1 ≤ u32_trailing_ones v := toAux_pos 31 v h

/-- Unfolding `GreedyQuad.covers` on its four fields. -/
lemma covers_iff (q : GreedyQuad) (a b : ℕ) :
    q.covers a b ↔ q.row ≤ a ∧ a < q.row + q.w ∧ q.y ≤ b ∧ b < q.y + q.h := Iff.rfl

/-- The empty-output case of the per-row loop: when all bits of the own row
at or above `y` are clear, nothing is emitted and the plane is unchanged. -/
lemma rowLoopOut_nil (row y : ℕ) (d : Plane)
    (hbits : ∀ b, y ≤ b → (d row).testBit b = false) :
    RowLoopOut row y d [] d := by
  unfold RowLoopOut
  refine ⟨?_, List.Pairwise.nil, rfl, ?_, ?_, ?_, fun i => Nat.le_refl _⟩
  · intro q hq
    exact absurd hq (List.not_mem_nil q)
  · intro b hb
    rw [hbits b hb]
    simp
  · intro a b _ hex
    obtain ⟨q, hq, _⟩ := hex
    exact absurd hq (List.not_mem_nil q)
  · intro a b _ _
    rfl

/-- Assembling one iteration of the per-row loop: the freshly emitted quad
`[row, row + e + 1) × [y1, y1 + h)` together with the recursive output for
the rest of the row satisfies the row-loop specification. -/
lemma rowLoopOut_cons (row y y1 h e : ℕ) (d d2 d3 : Plane) (qs : List GreedyQuad)
    (hy1le : y ≤ y1) (hh1 : 1 ≤ h) (hle32 : y1 + h ≤ 32)
    (hlow : ∀ b, y ≤ b → b < y1 → (d row).testBit b = false)
    (hrun : ∀ b, y1 ≤ b → b < y1 + h → (d row).testBit b = true)
    (hA1 : row + 1 + e ≤ 32)
    (hA2 : ∀ j, j < row + 1 ∨ row + 1 + e ≤ j → d2 j = d j)
    (hband : ∀ j, row + 1 ≤ j → j < row + 1 + e → ∀ b, y1 ≤ b → b < y1 + h →
      (d j).testBit b = true)
    (hclear : ∀ j, row + 1 ≤ j → j < row + 1 + e → ∀ b,
      (d2 j).testBit b = ((d j).testBit b && !(decide (y1 ≤ b) && decide (b < y1 + h))))
    (hd2le : ∀ i, d2 i ≤ d i)
    (hrec : RowLoopOut row (y1 + h) d2 qs d3) :
    RowLoopOut row y d (⟨row, y1, e + 1, h⟩ :: qs) d3 := by
  unfold RowLoopOut at hrec ⊢
  obtain ⟨R1, R2, R3, R4, R5, R6, R7⟩ := hrec
  refine ⟨?_, ?_, ?_, ?_, ?_, ?_, fun i => Nat.le_trans (R7 i) (hd2le i)⟩
  · intro q hq
    rcases List.mem_cons.mp hq with rfl | hq
    · exact ⟨rfl, hy1le, hle32, hh1, show 1 ≤ e + 1 by omega,
        show row + (e + 1) ≤ 32 by omega⟩
    · obtain ⟨e1, e2, e3, e4, e5, e6⟩ := R1 q hq
      exact ⟨e1, by omega, e3, e4, e5, e6⟩
  · refine List.pairwise_cons.mpr ⟨?_, R2⟩
    intro q hq
    exact (R1 q hq).2.1
  · rw [R3, hA2 row (Or.inl (by omega))]
  · intro b hb
    rcases Nat.lt_or_ge b y1 with hblt | hbge
    · refine iff_of_false ?_ ?_
      · rw [hlow b hb hblt]
        simp
      · rintro ⟨q, hq, hq1, hq2⟩
        rcases List.mem_cons.mp hq with rfl | hq
        · exact absurd (show y1 ≤ b from hq1) (by omega)
        · have := (R1 q hq).2.1
          omega
    · rcases Nat.lt_or_ge b (y1 + h) with hblt2 | hbge2
      · exact iff_of_true (hrun b hbge hblt2)
          ⟨⟨row, y1, e + 1, h⟩, List.mem_cons_self _ _,
            show y1 ≤ b ∧ b < y1 + h by omega⟩
      · have hiff := R4 b hbge2
        rw [hA2 row (Or.inl (by omega))] at hiff
        rw [hiff]
        constructor
        · rintro ⟨q, hq, hq1, hq2⟩
          exact ⟨q, List.mem_cons_of_mem _ hq, hq1, hq2⟩
        · rintro ⟨q, hq, hq1, hq2⟩
          rcases List.mem_cons.mp hq with rfl | hq
          · exact absurd (show b < y1 + h from hq2) (by omega)
          · exact ⟨q, hq, hq1, hq2⟩
  · intro a b ha hex
    obtain ⟨q, hq, hcov⟩ := hex
    rcases List.mem_cons.mp hq with rfl | hq
    · obtain ⟨hc1, hc2, hc3, hc4⟩ :
          row ≤ a ∧ a < row + (e + 1) ∧ y1 ≤ b ∧ b < y1 + h := hcov
      have hspan1 : row + 1 ≤ a := by omega
      have hspan2 : a < row + 1 + e := by omega
      have hset : (d a).testBit b = true := hband a hspan1 hspan2 b hc3 hc4
      have hd2b : (d2 a).testBit b = false := by
        rw [hclear a hspan1 hspan2 b, hset]
        have hb1 : decide (y1 ≤ b) = true := by simpa using hc3
        have hb2 : decide (b < y1 + h) = true := by simpa using hc4
        rw [hb1, hb2]
        rfl
      refine ⟨hset, ?_⟩
      by_cases hc2' : ∃ q2 ∈ qs, q2.covers a b
      · exact (R5 a b ha hc2').2
      · rw [R6 a b ha hc2', hd2b]
    · have hR5 := R5 a b ha ⟨q, hq, hcov⟩
      refine ⟨?_, hR5.2⟩
      by_cases hin : row + 1 ≤ a ∧ a < row + 1 + e
      · have hbit := hR5.1
        rw [hclear a hin.1 hin.2 b, Bool.and_eq_true] at hbit
        exact hbit.1
      · rw [← hA2 a (by omega)]
        exact hR5.1
  · intro a b ha hnc
    have hqs : ¬ ∃ q ∈ qs, q.covers a b := by
      rintro ⟨q, hq, hc⟩
      exact hnc ⟨q, List.mem_cons_of_mem _ hq, hc⟩
    rw [R6 a b ha hqs]
    by_cases hin : row + 1 ≤ a ∧ a < row + 1 + e
    · rw [hclear a hin.1 hin.2 b]
      have hnb : ¬(y1 ≤ b ∧ b < y1 + h) := by
        intro hb
        refine hnc ⟨⟨row, y1, e + 1, h⟩, List.mem_cons_self _ _, ?_⟩
        exact show row ≤ a ∧ a < row + (e + 1) ∧ y1 ≤ b ∧ b < y1 + h from
          ⟨by omega, by omega, hb.1, hb.2⟩
      by_cases hb1 : y1 ≤ b
      · have hb2 : ¬ b < y1 + h := fun hb2 => hnb ⟨hb1, hb2⟩
        simp [hb2]
      · simp [hb1]
    · rw [hA2 a (by omega)]

/-- Unfolding one productive iteration of the per-row loop, with the derived
quantities supplied through linking equations. -/
lemma rowLoop_succ_step (row fuel y y1 h hm m : ℕ) (d : Plane) (hy : y < 32)
    (hy1 : y1 = y + u32_trailing_zeros (d row >>> y)) (hskip : ¬ 32 ≤ y1)
    (hh : h = u32_trailing_ones (d row >>> y1))
    (hhm : hm = if 32 ≤ h then 2 ^ 32 - 1 else 2 ^ h - 1)
    (hmm : m = (hm <<< y1) % 2 ^ 32) :
    rowLoop 32 row (fuel + 1) y d =
      (⟨row, y1, (growAux 32 y1 hm m 32 (row + 1) d).1 + 1, h⟩ ::
          (rowLoop 32 row fuel (y1 + h) (growAux 32 y1 hm m 32 (row + 1) d).2).1,
        (rowLoop 32 row fuel (y1 + h) (growAux 32 y1 hm m 32 (row + 1) d).2).2) := by
  subst hmm hhm hh hy1
  simp only [rowLoop]
  rw [if_pos hy, if_neg hskip]

/-- Full behaviour of the per-row loop `rowLoop` for a plane of 32-bit words:
see `RowLoopOut`. -/
lemma rowLoop_spec (row : ℕ) (hrow : row < 32) :
    ∀ (fuel y : ℕ) (d : Plane), (∀ i, d i < 2 ^ 32) → 32 - y < fuel →
      RowLoopOut row y d (rowLoop 32 row fuel y d).1 (rowLoop 32 row fuel y d).2 := by
  intro fuel
  induction fuel with
  | zero => intro y d _ hfuel; omega
  | succ fuel ih =>
    intro y d hd hfuel
    by_cases hy : y < 32
    · by_cases hskip : 32 ≤ y + u32_trailing_zeros (d row >>> y)
      · have heq : rowLoop 32 row (fuel + 1) y d = ([], d) := by
          simp only [rowLoop, if_pos hy, if_pos hskip]
        rw [heq]
        apply rowLoopOut_nil
        intro b hb
        by_cases hb2 : b < y + u32_trailing_zeros (d row >>> y)
        · have hz := trailing_zeros_bits (d row >>> y) (b - y) (by omega)
          rw [Nat.testBit_shiftRight] at hz
          have hba : y + (b - y) = b := by omega
          rwa [hba] at hz
        · exact Nat.testBit_lt_two_pow (lt_of_lt_of_le (hd row)
            (Nat.pow_le_pow_right (by norm_num) (by omega)))
      · obtain ⟨y1, hy1⟩ : ∃ x, x = y + u32_trailing_zeros (d row >>> y) := ⟨_, rfl⟩
        obtain ⟨h, hh⟩ : ∃ x, x = u32_trailing_ones (d row >>> y1) := ⟨_, rfl⟩
        obtain ⟨hm, hhm⟩ : ∃ x, x = if 32 ≤ h then 2 ^ 32 - 1 else 2 ^ h - 1 := ⟨_, rfl⟩
        obtain ⟨m, hmm⟩ : ∃ x, x = (hm <<< y1) % 2 ^ 32 := ⟨_, rfl⟩
        have hskip2 : ¬ 32 ≤ y1 := by rw [hy1]; exact hskip
        have heq := rowLoop_succ_step row fuel y y1 h hm m d hy hy1 hskip2 hh hhm hmm
        have hy1le : y ≤ y1 := by omega
        have hbit_y1 : (d row).testBit y1 = true := by
          have htzlt : u32_trailing_zeros (d row >>> y) < 32 := by omega
          have hbt := trailing_zeros_bit_true (d row >>> y) htzlt
          rw [Nat.testBit_shiftRight] at hbt
          rw [hy1]
          exact hbt
        have hhle : h ≤ 32 := by rw [hh]; exact trailing_ones_le _
        have hh1 : 1 ≤ h := by
          rw [hh]
          apply trailing_ones_pos
          have hsr : (d row >>> y1).testBit 0 = (d row).testBit (y1 + 0) :=
            Nat.testBit_shiftRight _
          rw [hsr, Nat.add_zero]
          exact hbit_y1
        have hrun : ∀ b, y1 ≤ b → b < y1 + h → (d row).testBit b = true := by
          intro b hb1 hb2
          have hto := trailing_ones_bits (d row >>> y1) (b - y1) (by omega)
          rw [Nat.testBit_shiftRight] at hto
          have hba : y1 + (b - y1) = b := by omega
          rwa [hba] at hto
        have hle32 : y1 + h ≤ 32 := by
          by_contra hcon
          have hbig := hrun 32 (by omega) (by omega)
          have hfb : (d row).testBit 32 = false := Nat.testBit_lt_two_pow (hd row)
          rw [hbig] at hfb
          exact Bool.noConfusion hfb
        have hlow : ∀ b, y ≤ b → b < y1 → (d row).testBit b = false := by
          intro b hb1 hb2
          have hz := trailing_zeros_bits (d row >>> y) (b - y) (by omega)
          rw [Nat.testBit_shiftRight] at hz
          have hba : y + (b - y) = b := by omega
          rwa [hba] at hz
        have hhmeq : hm = 2 ^ h - 1 := by rw [hhm]; exact height_as_mask_eq h hhle
        have hmbit : ∀ b, m.testBit b = (decide (y1 ≤ b) && decide (b < y1 + h)) := by
          intro b
          rw [hmm, hhmeq]
          exact mask_testBit h y1 b hle32
        obtain ⟨A1, A2, A3⟩ := growAux_spec y1 hm m 32 (row + 1) d (by omega) (by omega)
        obtain ⟨e, he⟩ : ∃ x, (growAux 32 y1 hm m 32 (row + 1) d).1 = x := ⟨_, rfl⟩
        obtain ⟨d2, hd2⟩ : ∃ x, (growAux 32 y1 hm m 32 (row + 1) d).2 = x := ⟨_, rfl⟩
        rw [he] at A1 A2 A3 heq
        rw [hd2] at A2 A3 heq
        have hband : ∀ j, row + 1 ≤ j → j < row + 1 + e → ∀ b, y1 ≤ b → b < y1 + h →
            (d j).testBit b = true := by
          intro j hj1 hj2 b hb1 hb2
          have hmeq := (A3 j hj1 hj2).1
          rw [hhmeq] at hmeq
          exact (mask_check_iff (d j) h y1).mp hmeq b hb1 hb2
        have hclear : ∀ j, row + 1 ≤ j → j < row + 1 + e → ∀ b,
            (d2 j).testBit b =
              ((d j).testBit b && !(decide (y1 ≤ b) && decide (b < y1 + h))) := by
          intro j hj1 hj2 b
          rw [(A3 j hj1 hj2).2, clear_testBit (d j) m b (hd j), hmbit b]
        have hd2le : ∀ i, d2 i ≤ d i := by
          intro i
          by_cases hi : row + 1 ≤ i ∧ i < row + 1 + e
          · rw [(A3 i hi.1 hi.2).2]
            exact Nat.and_le_left
          · rw [A2 i (by omega)]
        have hrec := ih (y1 + h) d2 (fun i => Nat.lt_of_le_of_lt (hd2le i) (hd i))
          (by omega)
        obtain ⟨qs, hqs⟩ : ∃ x, (rowLoop 32 row fuel (y1 + h) d2).1 = x := ⟨_, rfl⟩
        obtain ⟨d3, hd3⟩ : ∃ x, (rowLoop 32 row fuel (y1 + h) d2).2 = x := ⟨_, rfl⟩
        rw [hqs, hd3] at hrec heq
        rw [heq]
        exact rowLoopOut_cons row y y1 h e d d2 d3 qs hy1le hh1 hle32 hlow hrun
          A1 A2 hband hclear hd2le hrec
    · have heq : rowLoop 32 row (fuel + 1) y d = ([], d) := by
        simp only [rowLoop, if_neg hy]
      rw [heq]
      apply rowLoopOut_nil
      intro b hb
      exact Nat.testBit_lt_two_pow (lt_of_lt_of_le (hd row)
        (Nat.pow_le_pow_right (by norm_num) (by omega)))

/-- The row iteration of the greedy mesher satisfies `GreedyAuxOut`: quads in
range, pairwise disjoint, and covering exactly the set bits of the rows not
yet processed. -/
lemma greedyAux_spec :
    ∀ (n row : ℕ) (d : Plane), row + n = 32 → (∀ i, d i < 2 ^ 32) →
      GreedyAuxOut row d (greedyAux 32 n row d).1 := by
  intro n
  induction n with
  | zero =>
    intro row d hrow hd
    have heq : (greedyAux 32 0 row d).1 = [] := rfl
    rw [heq]
    unfold GreedyAuxOut
    exact ⟨fun q hq => absurd hq (List.not_mem_nil q), List.Pairwise.nil,
      fun a b ha1 ha2 _ => absurd ha2 (by omega)⟩
  | succ n ih =>
    intro row d hrow hd
    have hrowlt : row < 32 := by omega
    have heq : (greedyAux 32 (n + 1) row d).1 =
        (rowLoop 32 row (32 + 1) 0 d).1 ++
          (greedyAux 32 n (row + 1) (rowLoop 32 row (32 + 1) 0 d).2).1 := by
      simp only [greedyAux]
    obtain ⟨qh, hqh⟩ : ∃ x, (rowLoop 32 row (32 + 1) 0 d).1 = x := ⟨_, rfl⟩
    obtain ⟨dh, hdh⟩ : ∃ x, (rowLoop 32 row (32 + 1) 0 d).2 = x := ⟨_, rfl⟩
    rw [hqh, hdh] at heq
    have hH := rowLoop_spec row hrowlt (32 + 1) 0 d hd (by omega)
    rw [hqh, hdh] at hH
    unfold RowLoopOut at hH
    obtain ⟨R1, R2, R3, R4, R5, R6, R7⟩ := hH
    have hR := ih (row + 1) dh (by omega) (fun i => Nat.lt_of_le_of_lt (R7 i) (hd i))
    unfold GreedyAuxOut at hR ⊢
    obtain ⟨qr, hqr⟩ : ∃ x, (greedyAux 32 n (row + 1) dh).1 = x := ⟨_, rfl⟩
    rw [hqr] at hR
    obtain ⟨G1, G2, G3⟩ := hR
    rw [hqr] at heq
    rw [heq]
    refine ⟨?_, ?_, ?_⟩
    · intro q hq
      rcases List.mem_append.mp hq with hq | hq
      · obtain ⟨e1, e2, e3, e4, e5, e6⟩ := R1 q hq
        exact ⟨by omega, by omega, e3, e5, e4⟩
      · obtain ⟨f1, f2, f3, f4, f5⟩ := G1 q hq
        exact ⟨by omega, f2, f3, f4, f5⟩
    · rw [List.pairwise_append]
      refine ⟨?_, G2, ?_⟩
      · refine R2.imp ?_
        intro q1 q2 hle
        intro a b hcc
        obtain ⟨hc1, hc2⟩ := hcc
        rw [covers_iff] at hc1 hc2
        omega
      · intro q1 hq1 q2 hq2 a b hcc
        obtain ⟨hc1, hc2⟩ := hcc
        obtain ⟨f1, f2, f3, f4, f5⟩ := G1 q2 hq2
        have hc1' := hc1
        have hc2' := hc2
        rw [covers_iff] at hc1' hc2'
        have hane : a ≠ row := by omega
        have hfalse := (R5 a b hane ⟨q1, hq1, hc1⟩).2
        have htrue := (G3 a b (by omega) (by omega) (by omega)).mpr ⟨q2, hq2, hc2⟩
        rw [hfalse] at htrue
        exact Bool.noConfusion htrue
    · intro a b ha1 ha2 hb
      rcases Nat.eq_or_lt_of_le ha1 with rfl | halt
      · have hiff := R4 b (Nat.zero_le b)
        rw [hiff]
        constructor
        · rintro ⟨q, hq, h1, h2⟩
          refine ⟨q, List.mem_append.mpr (Or.inl hq), ?_⟩
          obtain ⟨e1, _, _, _, e5, _⟩ := R1 q hq
          rw [covers_iff]
          omega
        · rintro ⟨q, hq, hcov⟩
          rw [covers_iff] at hcov
          rcases List.mem_append.mp hq with hq | hq
          · exact ⟨q, hq, by omega, by omega⟩
          · obtain ⟨f1, _, _, _, _⟩ := G1 q hq
            exact absurd f1 (by omega)
      · by_cases hc : ∃ q ∈ qh, q.covers a b
        · obtain ⟨hset, hclr⟩ := R5 a b (by omega) hc
          obtain ⟨q, hq, hcov⟩ := hc
          exact iff_of_true hset ⟨q, List.mem_append.mpr (Or.inl hq), hcov⟩
        · have hun := R6 a b (by omega) hc
          have hiff := G3 a b (by omega) ha2 hb
          rw [hun] at hiff
          rw [hiff]
          constructor
          · rintro ⟨q, hq, hcov⟩
            exact ⟨q, List.mem_append.mpr (Or.inr hq), hcov⟩
          · rintro ⟨q, hq, hcov⟩
            rcases List.mem_append.mp hq with hq | hq
            · exact absurd ⟨q, hq, hcov⟩ hc
            · exact ⟨q, hq, hcov⟩

end GreedyLemmas

/-- C10: for every 32-row input plane of 32-bit words at lod size 32, the
binary greedy mesher emits axis-aligned rectangles that lie within the 32×32
plane, are pairwise disjoint, and together cover exactly the set bits of the
input: a cell of the plane has its bit set iff some returned quad covers it,
and by disjointness that quad is unique. -/
theorem greedy_mesh_binary_plane_spec (d : Plane) (hd : ∀ i, d i < 2 ^ 32) :
    (∀ q ∈ greedy_mesh_binary_plane d 32,
        q.row + q.w ≤ 32 ∧ q.y + q.h ≤ 32 ∧ 1 ≤ q.w ∧ 1 ≤ q.h) ∧
      (greedy_mesh_binary_plane d 32).Pairwise
        (fun q1 q2 => ∀ a b, ¬(q1.covers a b ∧ q2.covers a b)) ∧
      ∀ a b, a < 32 → b < 32 →
        ((d a).testBit b = true ↔ ∃ q ∈ greedy_mesh_binary_plane d 32, q.covers a b) := by
  have hspec := greedyAux_spec 32 0 d rfl hd
  unfold GreedyAuxOut at hspec
  obtain ⟨G1, G2, G3⟩ := hspec
  unfold greedy_mesh_binary_plane
  refine ⟨?_, G2, ?_⟩
  · intro q hq
    obtain ⟨_, e2, e3, e4, e5⟩ := G1 q hq
    exact ⟨e2, e3, e4, e5⟩
  · intro a b ha hb
    exact G3 a b (Nat.zero_le a) ha hb

/-- C10 witness: the constant plane whose every row has bits 1 and 2 set is a
valid 32-bit plane, and the specification holds for it. -/
theorem greedy_mesh_binary_plane_spec_witness :
    (∀ i, (fun _ : ℕ => 6) i < 2 ^ 32) ∧
      ((∀ q ∈ greedy_mesh_binary_plane (fun _ : ℕ => 6) 32,
          q.row + q.w ≤ 32 ∧ q.y + q.h ≤ 32 ∧ 1 ≤ q.w ∧ 1 ≤ q.h) ∧
        (greedy_mesh_binary_plane (fun _ : ℕ => 6) 32).Pairwise
          (fun q1 q2 => ∀ a b, ¬(q1.covers a b ∧ q2.covers a b)) ∧
        ∀ a b, a < 32 → b < 32 →
          (((fun _ : ℕ => 6) a).testBit b = true ↔
            ∃ q ∈ greedy_mesh_binary_plane (fun _ : ℕ => 6) 32, q.covers a b)) :=
  ⟨fun _ => by norm_num,
    greedy_mesh_binary_plane_spec (fun _ : ℕ => 6) (fun _ => by norm_num)⟩

/-- C5 counterexample: the claimed round-trip fails for the `i32` world
coordinate x = 536870960 (= 2^29 + 48). Converting `x - 16 = 2^29 + 32` to
`f32` rounds it (ties to even) down to `2^29`, so the chunk coordinate comes
out as `2^24` instead of `⌊x/32⌋ = 2^24 + 1`, and the reconstruction returns
536870928 = 2^29 + 16 ≠ x. -/
theorem to_voxel_pos_roundtrip_fails_large :
    WorldPos.from_voxel_pos (WorldPos.to_voxel_pos ⟨536870960, 0, 0⟩).1
        (WorldPos.to_voxel_pos ⟨536870960, 0, 0⟩).2 = ⟨536870928, 0, 0⟩ ∧
      (⟨536870928, 0, 0⟩ : WorldPos) ≠ ⟨536870960, 0, 0⟩ := by decide

/-- C5 (amended): for every world coordinate whose components have magnitude
at most `2^22` (where all three `f32` operations of the chunk computation
are exact — negative components included), `to_voxel_pos` yields voxel
components in `[0, CHUNK_SIZE)` and `from_voxel_pos` reconstructs the input
exactly. -/
theorem to_voxel_pos_roundtrip_small (p : WorldPos)
    (hx : p.x.natAbs ≤ 2 ^ 22) (hy : p.y.natAbs ≤ 2 ^ 22) (hz : p.z.natAbs ≤ 2 ^ 22) :
    (WorldPos.to_voxel_pos p).1.x < CHUNK_SIZE ∧
      (WorldPos.to_voxel_pos p).1.y < CHUNK_SIZE ∧
      (WorldPos.to_voxel_pos p).1.z < CHUNK_SIZE ∧
      WorldPos.from_voxel_pos (WorldPos.to_voxel_pos p).1 (WorldPos.to_voxel_pos p).2 = p := by
  obtain ⟨x, y, z⟩ := p
  dsimp only [WorldPos.to_voxel_pos, WorldPos.from_voxel_pos] at *
  refine ⟨(voxelComponent_spec x).2, (voxelComponent_spec y).2, (voxelComponent_spec z).2, ?_⟩
  have ex := (voxelComponent_spec x).1
  have ey := (voxelComponent_spec y).1
  have ez := (voxelComponent_spec z).1
  have hcs : ((CHUNK_SIZE : ℕ) : ℤ) = 32 := by norm_num [CHUNK_SIZE]
  rw [chunkCoordinate_eq_ediv x hx, chunkCoordinate_eq_ediv y hy, chunkCoordinate_eq_ediv z hz,
    WorldPos.mk.injEq, hcs]
  refine ⟨?_, ?_, ?_⟩ <;> omega

/-- C5 witness: the negative coordinate (-1, -33, 5) is in the amended range
and round-trips (world x = -1 maps to voxel 31 of chunk -1). -/
theorem to_voxel_pos_roundtrip_small_witness :
    ((⟨-1, -33, 5⟩ : WorldPos).x.natAbs ≤ 2 ^ 22 ∧
        (⟨-1, -33, 5⟩ : WorldPos).y.natAbs ≤ 2 ^ 22 ∧
        (⟨-1, -33, 5⟩ : WorldPos).z.natAbs ≤ 2 ^ 22) ∧
      ((WorldPos.to_voxel_pos ⟨-1, -33, 5⟩).1.x < CHUNK_SIZE ∧
        (WorldPos.to_voxel_pos ⟨-1, -33, 5⟩).1.y < CHUNK_SIZE ∧
        (WorldPos.to_voxel_pos ⟨-1, -33, 5⟩).1.z < CHUNK_SIZE ∧
        WorldPos.from_voxel_pos (WorldPos.to_voxel_pos ⟨-1, -33, 5⟩).1
          (WorldPos.to_voxel_pos ⟨-1, -33, 5⟩).2 = ⟨-1, -33, 5⟩) :=
  ⟨⟨by decide, by decide, by decide⟩,
    to_voxel_pos_roundtrip_small ⟨-1, -33, 5⟩ (by decide) (by decide) (by decide)⟩

end VoxelEngine
